import Mathlib

/-
Formal model of the event-management core of the maritime simulation kernel
(`mable/event_management.py`): the event taxonomy with its structural (`__eq__`)
equality, the duration/start-time tracking, and the `EventQueue` built on
Python's `queue.PriorityQueue`, i.e. CPython's `heapq` algorithms over a plain
list of `EventItem` wrappers.  All definitions are shallow embeddings of the
Python source; theorems below settle the specification's claims about them.
-/

/-
Simulated time.  Python stores times as floats; the reachable values are
finite numbers (modelled as rationals) and `math.inf`.
-/
inductive STime where
  | fin (q : ℚ)
  | inf
deriving DecidableEq

/- Float `<` restricted to the values above. -/
def STime.lt : STime → STime → Bool
  | .fin a, .fin b => decide (a < b)
  | .fin _, .inf => true
  | .inf, _ => false

/- Float `<=` restricted to the values above. -/
def STime.le : STime → STime → Bool
  | .fin a, .fin b => decide (a ≤ b)
  | .fin _, .inf => true
  | .inf, .fin _ => false
  | .inf, .inf => true

/- Float subtraction of a finite value (`time - time_started`; `time_started`
is always finite: it is initialised to `-1` and only ever assigned finite
simulated times). -/
def STime.subQ : STime → ℚ → STime
  | .fin a, b => .fin (a - b)
  | .inf, _ => .inf

/-
External collaborator data (network locations, vessels, trades).  These
classes live outside the core (spec §1 treats them as out of scope, reached
only through narrow interfaces); they are modelled structurally, with a name
standing in for their printable form.
-/
structure Location where
  name : String
deriving DecidableEq

def locStr (l : Location) : String := l.name

structure Vessel where
  ident : Nat
  name : String
deriving DecidableEq

/- A trade with its four-point time window
`(earliest pickup, latest pickup, earliest drop-off, latest drop-off)`;
`None` entries are unconstrained, as in `trade.time_window[i] is not None`. -/
structure Trade where
  origin_port : Location
  destination_port : Location
  cargo_type : String
  amount : ℚ
  twPickupEarliest : Option ℚ
  twPickupLatest : Option ℚ
  twDropoffEarliest : Option ℚ
  twDropoffLatest : Option ℚ
deriving DecidableEq

/- A vessel's location field: a resolved location or the provisional
`OnJourney(origin, destination, start_time)` value. -/
inductive VLoc where
  | loc (l : Location)
  | onJourney (origin destination : Location) (startTime : ℚ)
deriving DecidableEq

/-
The closed event taxonomy of `event_management.py`.  Each constructor carries
exactly the attributes the corresponding Python class stores:
`time`/`info` from `Event`, `_time_started` from `DurationEvent`, `_vessel`
from `VesselEvent`, and the kind-specific fields.
-/
inductive Ev where
  | base (time : STime) (info : Option String)
  | firstCargoAnnouncement (time : STime) (info : Option String)
      (cargoAvailableTimeSecondCargo : STime)
  | cargoAnnouncement (time : STime) (info : Option String)
      (cargoAvailableTime : STime)
  | cargo (time : STime) (info : Option String)
  | durationOnly (time : STime) (info : Option String) (timeStarted : ℚ)
  | vesselLocationInformation (time : STime) (info : Option String)
      (timeStarted : ℚ) (vessel : Vessel) (location : Location)
  | travel (time : STime) (info : Option String) (timeStarted : ℚ)
      (vessel : Vessel) (origin destination : Location) (isLaden : Bool)
  | idle (time : STime) (info : Option String) (timeStarted : ℚ)
      (vessel : Vessel) (location : Location)
  | arrival (time : STime) (info : Option String) (timeStarted : ℚ)
      (vessel : Vessel) (trade : Trade) (isPickup : Bool)
  | cargoTransfer (time : STime) (info : Option String) (timeStarted : ℚ)
      (vessel : Vessel) (trade : Trade) (isPickup : Bool)
deriving DecidableEq

/- The `Event.time` property. -/
def Ev.time : Ev → STime
  | .base t _ | .firstCargoAnnouncement t _ _ | .cargoAnnouncement t _ _
  | .cargo t _ | .durationOnly t _ _
  | .vesselLocationInformation t _ _ _ _ | .travel t _ _ _ _ _ _
  | .idle t _ _ _ _ | .arrival t _ _ _ _ _ | .cargoTransfer t _ _ _ _ _ => t

/- The `Event.info` attribute. -/
def Ev.info : Ev → Option String
  | .base _ i | .firstCargoAnnouncement _ i _ | .cargoAnnouncement _ i _
  | .cargo _ i | .durationOnly _ i _
  | .vesselLocationInformation _ i _ _ _ | .travel _ i _ _ _ _ _
  | .idle _ i _ _ _ | .arrival _ i _ _ _ _ | .cargoTransfer _ i _ _ _ _ => i

/- The `DurationEvent._time_started` attribute (`-1` denotes an unstarted
event; non-duration events have no such attribute and yield the sentinel). -/
def Ev.timeStartedD : Ev → ℚ
  | .durationOnly _ _ s | .vesselLocationInformation _ _ s _ _
  | .travel _ _ s _ _ _ _ | .idle _ _ s _ _ | .arrival _ _ s _ _ _
  | .cargoTransfer _ _ s _ _ _ => s
  | _ => -1

/- `isinstance(e, VesselEvent)`. -/
def Ev.isVesselEvent : Ev → Bool
  | .vesselLocationInformation .. | .travel .. | .idle ..
  | .arrival .. | .cargoTransfer .. => true
  | _ => false

/- The `VesselEvent._vessel` attribute (for vessel events). -/
def Ev.vesselD : Ev → Option Vessel
  | .vesselLocationInformation _ _ _ v _ | .travel _ _ _ v _ _ _
  | .idle _ _ _ v _ | .arrival _ _ _ v _ _ | .cargoTransfer _ _ _ v _ _ =>
      some v
  | _ => none

/- `isinstance(e, IdleEvent)` and friends. -/
def Ev.isIdle : Ev → Bool
  | .idle .. => true
  | _ => false

def Ev.isArrival : Ev → Bool
  | .arrival .. => true
  | _ => false

def Ev.isCargoTransfer : Ev → Bool
  | .cargoTransfer .. => true
  | _ => false

/- `Event.__eq__`: same time and same info (every object in the closed model
is an `Event`, so the `isinstance(other, Event)` guard always passes). -/
def Ev.baseEq (a b : Ev) : Bool :=
  decide (a.time = b.time) && decide (a.info = b.info)

/- `VesselEvent.__eq__`: `isinstance(other, VesselEvent)`, `Event.__eq__`,
and equal vessels. -/
def Ev.vesselEventEq (a b : Ev) : Bool :=
  b.isVesselEvent && Ev.baseEq a b && decide (a.vesselD = b.vesselD)

/- `VesselCargoEvent.__eq__`: `isinstance(other, VesselCargoEvent)`, equal
time, equal pickup flag and equal trade (info and vessel are not compared). -/
def Ev.vesselCargoEq (t : STime) (tr : Trade) (p : Bool) (b : Ev) : Bool :=
  match b with
  | .arrival tb _ _ _ trb pb => decide (t = tb) && (p == pb) && decide (tr = trb)
  | .cargoTransfer tb _ _ _ trb pb =>
      decide (t = tb) && (p == pb) && decide (tr = trb)
  | _ => false

/- Python `a == b` on events: dispatches on the dynamic type of `a` to the
most derived `__eq__` override. -/
def Ev.eq (a b : Ev) : Bool :=
  match a with
  | .base .. | .firstCargoAnnouncement .. | .cargoAnnouncement ..
  | .cargo .. | .durationOnly .. => Ev.baseEq a b
  | .vesselLocationInformation .. | .travel .. => Ev.vesselEventEq a b
  | .idle _ _ _ _ loc =>
      match b with
      | .idle _ _ _ _ locb => Ev.vesselEventEq a b && decide (loc = locb)
      | _ => false
  | .arrival t _ _ _ tr p => b.isArrival && Ev.vesselCargoEq t tr p b
  | .cargoTransfer t _ _ _ tr p =>
      b.isCargoTransfer && Ev.vesselCargoEq t tr p b

/- `IdleEvent.__init__`: derived info label, unstarted duration. -/
def mkIdleEvent (time : STime) (vessel : Vessel) (location : Location) : Ev :=
  .idle time
    (some (locStr location ++ " idling (Vessel [name: " ++ vessel.name ++ "])"))
    (-1) vessel location

/- `TravelEvent.__init__`. -/
def mkTravelEvent (time : STime) (vessel : Vessel)
    (origin destination : Location) : Ev :=
  .travel time
    (some (locStr destination ++ " travel (Vessel [name: " ++ vessel.name
      ++ "]: " ++ locStr origin ++ "->" ++ locStr destination ++ ")"))
    (-1) vessel origin destination false

/- The info label set by `VesselCargoEvent.__init__`. -/
def vesselCargoInfo (vessel : Vessel) (trade : Trade) (isPickup : Bool) :
    String :=
  if isPickup then
    locStr trade.origin_port ++ " pick up (Vessel [name: " ++ vessel.name
      ++ "], Trade [" ++ trade.cargo_type ++ ", " ++ toString trade.amount
      ++ "]: " ++ locStr trade.origin_port ++ "->"
      ++ locStr trade.destination_port ++ ")"
  else
    locStr trade.destination_port ++ " drop off (Vessel [name: "
      ++ vessel.name ++ "], Trade [" ++ trade.cargo_type ++ ", "
      ++ toString trade.amount ++ "]: " ++ locStr trade.origin_port ++ "->"
      ++ locStr trade.destination_port ++ ")"

/- `ArrivalEvent` constructor (`VesselCargoEvent.__init__`). -/
def mkArrivalEvent (time : STime) (vessel : Vessel) (trade : Trade)
    (isPickup : Bool) : Ev :=
  .arrival time (some (vesselCargoInfo vessel trade isPickup)) (-1) vessel
    trade isPickup

/- `CargoTransferEvent` constructor (`VesselCargoEvent.__init__`). -/
def mkCargoTransferEvent (time : STime) (vessel : Vessel) (trade : Trade)
    (isPickup : Bool) : Ev :=
  .cargoTransfer time (some (vesselCargoInfo vessel trade isPickup)) (-1)
    vessel trade isPickup

/- `DurationEvent.added_to_queue`: the start time becomes the event's own
time when that time precedes the current simulated time, and the current
time otherwise. -/
def durStart (time : STime) (currentTime : ℚ) : ℚ :=
  match time with
  | .fin t => if t < currentTime then t else currentTime
  | .inf => currentTime

/- `DurationEvent.has_started`. -/
def hasStarted (timeStarted : ℚ) : Bool :=
  decide (0 ≤ timeStarted)

/- `DurationEvent.performed_time`: zero while unstarted, else
`time - time_started`. -/
def performedTime (time : STime) (timeStarted : ℚ) : STime :=
  if hasStarted timeStarted then time.subQ timeStarted else .fin 0

/- `Event.added_to_queue` with its overrides: the base hook does nothing,
`DurationEvent` fixes `_time_started`, and `TravelEvent` additionally
publishes the provisional `OnJourney` location to its vessel (returned as
the second component). -/
def Ev.addedToQueue (e : Ev) (currentTime : ℚ) : Ev × Option VLoc :=
  match e with
  | .base .. | .firstCargoAnnouncement .. | .cargoAnnouncement ..
  | .cargo .. => (e, none)
  | .durationOnly t i _ => (.durationOnly t i (durStart t currentTime), none)
  | .vesselLocationInformation t i _ v loc =>
      (.vesselLocationInformation t i (durStart t currentTime) v loc, none)
  | .travel t i _ v o d laden =>
      (.travel t i (durStart t currentTime) v o d laden,
       some (.onJourney o d (durStart t currentTime)))
  | .idle t i _ v loc => (.idle t i (durStart t currentTime) v loc, none)
  | .arrival t i _ v tr p => (.arrival t i (durStart t currentTime) v tr p, none)
  | .cargoTransfer t i _ v tr p =>
      (.cargoTransfer t i (durStart t currentTime) v tr p, none)

/-
`EventItem`: the queue's wrapper, a `dataclass(order=True)` whose generated
`__eq__`/`__lt__` compare only the tuple of compared fields, which is
`(time,)` — the `event` field is declared with `compare=False`.
-/
structure EventItem where
  time : STime
  event : Ev
deriving DecidableEq

instance : Inhabited EventItem :=
  ⟨⟨.fin 0, .base (.fin 0) none⟩⟩

/- The dataclass-generated `EventItem.__eq__`: time only. -/
def EventItem.beqPy (a b : EventItem) : Bool :=
  decide (a.time = b.time)

/- The dataclass-generated `EventItem.__lt__`: time only. -/
def EventItem.ltPy (a b : EventItem) : Bool :=
  STime.lt a.time b.time

/- Index read `heap[i]` (all reads below happen in bounds). -/
def g (l : List EventItem) (i : Nat) : EventItem :=
  l.getD i default

/-
CPython `heapq._siftdown(heap, startpos, pos)`: the while loop moving the
hole at `pos` towards the root while `newitem` is smaller than the parent.
Returns the final list and the final hole position.
-/
def sdGo : Nat → List EventItem → Nat → Nat → EventItem → List EventItem × Nat
  | 0, l, _, pos, _ => (l, pos)
  | fuel + 1, l, startpos, pos, newitem =>
    if startpos < pos then
      if EventItem.ltPy newitem (g l ((pos - 1) / 2)) then
        sdGo fuel (l.set pos (g l ((pos - 1) / 2))) startpos ((pos - 1) / 2)
          newitem
      else (l, pos)
    else (l, pos)

def sdLoop (l : List EventItem) (startpos pos : Nat) (newitem : EventItem) :
    List EventItem × Nat :=
  sdGo pos l startpos pos newitem

/- CPython `heapq._siftdown`: run the loop, then write `newitem` (read from
`heap[pos]` on entry) into the final hole. -/
def siftdown (l : List EventItem) (startpos pos : Nat) : List EventItem :=
  (sdLoop l startpos pos (g l pos)).1.set (sdLoop l startpos pos (g l pos)).2
    (g l pos)

/-
CPython `heapq._siftup(heap, pos)`, first phase: the while loop that moves
the smaller child up into the hole until the hole reaches a childless
position.  Returns the final list and the final hole position.
-/
def suChild (l : List EventItem) (pos : Nat) : Nat :=
  if 2 * pos + 2 < l.length
      && !(EventItem.ltPy (g l (2 * pos + 1)) (g l (2 * pos + 2))) then
    2 * pos + 2
  else 2 * pos + 1

def suGo : Nat → List EventItem → Nat → List EventItem × Nat
  | 0, l, pos => (l, pos)
  | fuel + 1, l, pos =>
    if 2 * pos + 1 < l.length then
      suGo fuel (l.set pos (g l (suChild l pos))) (suChild l pos)
    else (l, pos)

def suLoop (l : List EventItem) (pos : Nat) : List EventItem × Nat :=
  suGo l.length l pos

/- CPython `heapq._siftup`: run the promotion loop, write `newitem` (read
from `heap[pos]` on entry) at the final hole, and sift it back down towards
`startpos := pos`. -/
def siftup (l : List EventItem) (pos : Nat) : List EventItem :=
  siftdown ((suLoop l pos).1.set (suLoop l pos).2 (g l pos)) pos (suLoop l pos).2

/- CPython `heapq.heappush`: append, then `_siftdown(heap, 0, len(heap)-1)`. -/
def heappush (l : List EventItem) (item : EventItem) : List EventItem :=
  siftdown (l ++ [item]) 0 l.length

/-
CPython `heapq.heappop`: pop the last element; if the heap is still
non-empty, return the root, overwrite it with the last element and
`_siftup(heap, 0)`.  `None` models the `IndexError` on an empty list, which
`PriorityQueue.get` never reaches (it checks `_qsize()` first).
-/
def heappop : List EventItem → Option (EventItem × List EventItem)
  | [] => none
  | x :: xs =>
    if (x :: xs).dropLast.isEmpty then
      some ((x :: xs).getLast (List.cons_ne_nil x xs), (x :: xs).dropLast)
    else
      some (g (x :: xs).dropLast 0,
        siftup
          ((x :: xs).dropLast.set 0 ((x :: xs).getLast (List.cons_ne_nil x xs)))
          0)

/- The error raised by `EventQueue.put`:
`ValueError("Event with infinite deadline.")` (the spec's
`InvalidScheduleError`). -/
inductive SchedError where
  | infiniteDeadline
deriving DecidableEq

/-
`EventQueue.put`: reject an infinite event time, invoke the event's
`added_to_queue` hook (which may set `_time_started` and, for travel
events, publish a provisional vessel location, returned here as the
optional `VLoc`), then push `EventItem(event.time, event)` onto the heap.
On `.error`, nothing has happened: the schedule is unchanged and the hook
has not run.
-/
def queuePut (q : List EventItem) (e : Ev) (currentTime : ℚ) :
    Except SchedError (List EventItem × Option VLoc) :=
  if e.time = .inf then .error .infiniteDeadline
  else
    let r := e.addedToQueue currentTime
    .ok (heappush q ⟨r.1.time, r.1⟩, r.2)

/-
Outcome of `EventQueue.get` (i.e. `PriorityQueue.get`): with an empty queue
it raises `queue.Empty` when `block=False` (the spec's
`EmptyScheduleError`) and waits on the `not_empty` condition — forever, in
the single-threaded kernel — when `block=True` (the default).
-/
inductive GetOutcome where
  | ok (e : Ev) (rest : List EventItem)
  | raisesEmpty
  | waitsForever
deriving DecidableEq

/- `EventQueue.get(block)`. -/
def queueGet (block : Bool) (q : List EventItem) : GetOutcome :=
  match heappop q with
  | none => if block then .waitsForever else .raisesEmpty
  | some (it, rest) => .ok it.event rest

/-
`list.remove(x)` as called by `EventQueue.remove`: delete the first element
comparing equal to `x` under `EventItem.__eq__` (time only); `none` models
the `ValueError` when no element matches.
-/
def pyListRemove (l : List EventItem) (x : EventItem) :
    Option (List EventItem) :=
  match l with
  | [] => none
  | y :: ys =>
    if EventItem.beqPy y x then some ys
    else (pyListRemove ys x).map (y :: ·)

/- One iteration of `EventQueue.remove`'s loop: build
`EventItem(event.time, event)` and `self.queue.remove` it; a caught
`ValueError` leaves the queue unchanged and logs a warning (the `Bool`). -/
def queueRemoveOne (q : List EventItem) (e : Ev) : List EventItem × Bool :=
  match pyListRemove q ⟨e.time, e⟩ with
  | some q2 => (q2, false)
  | none => (q, true)

/- One step of `EventQueue.remove`'s loop over the running
(queue, warned events) state. -/
def removeStep (acc : List EventItem × List Ev) (e : Ev) :
    List EventItem × List Ev :=
  ((queueRemoveOne acc.1 e).1,
   if (queueRemoveOne acc.1 e).2 then acc.2 ++ [e] else acc.2)

/- `EventQueue.remove` over a list of events; the second component collects
the events whose removal only produced a warning. -/
def queueRemove (q : List EventItem) (es : List Ev) :
    List EventItem × List Ev :=
  es.foldl removeStep (q, [])

/- The scan in `EventQueue.purge`: the events in the heap list (in list
order) that are `VesselEvent`s of the given vessel. -/
def collectVesselEvents (q : List EventItem) (v : Vessel) : List Ev :=
  q.filterMap
    (fun it =>
      if it.event.isVesselEvent && it.event.vesselD == some v then
        some it.event
      else none)

/- `EventQueue.purge(vessel)`: collect the vessel's events, then `remove`
them. -/
def queuePurge (q : List EventItem) (v : Vessel) : List EventItem × List Ev :=
  queueRemove q (collectVesselEvents q v)

/- `EventQueue.__contains__`: linear scan comparing `EventItem(event.time,
event)` with the stored items under `EventItem.__eq__` (time only). -/
def queueContains (q : List EventItem) (e : Ev) : Bool :=
  q.any (fun it => EventItem.beqPy ⟨e.time, e⟩ it)

/- `EventQueue.__getitem__`: first stored event whose item compares equal
(time only); `none` models the `ValueError` when there is no match. -/
def queueGetItem (q : List EventItem) (e : Ev) : Option Ev :=
  (q.find? (fun it => EventItem.beqPy ⟨e.time, e⟩ it)).map (·.event)

/-
Vessel state touched by event execution: the `location` attribute and the
cargo manifest.  `load_cargo`/`unload_cargo` live on the external `Vessel`
class; the manifest is modelled as the list of signed transfers they record.
-/
structure VesselState where
  location : VLoc
  cargo : List (String × ℚ)
deriving DecidableEq

/-- Modelled from the spec: `vessel.load_cargo(type, amount)` is an external
collaborator operation (spec §6); a pickup of `amount` units increases the
vessel's load of that cargo type by exactly `amount` (spec §8). -/
def loadCargo (c : List (String × ℚ)) (ty : String) (amt : ℚ) :
    List (String × ℚ) :=
  c ++ [(ty, amt)]

/-- Modelled from the spec: `vessel.unload_cargo(type, amount)` is an
external collaborator operation (spec §6); a drop-off decreases the load of
that cargo type by exactly `amount` (spec §8). -/
def unloadCargo (c : List (String × ℚ)) (ty : String) (amt : ℚ) :
    List (String × ℚ) :=
  c ++ [(ty, -amt)]

/- The `location` property of the vessel-event classes
(`VesselLocationInformationEvent`, `TravelEvent` — the `OnJourney`
composite —, `IdleEvent`, and `VesselCargoEvent`, which resolves to the
trade's origin port for a pickup and its destination port otherwise). -/
def vesselEventLocation (e : Ev) : Option VLoc :=
  match e with
  | .vesselLocationInformation _ _ _ _ loc => some (.loc loc)
  | .travel _ _ s _ o d _ => some (.onJourney o d s)
  | .idle _ _ _ _ loc => some (.loc loc)
  | .arrival _ _ _ _ tr p =>
      some (.loc (if p then tr.origin_port else tr.destination_port))
  | .cargoTransfer _ _ _ _ tr p =>
      some (.loc (if p then tr.origin_port else tr.destination_port))
  | _ => none

/- `VesselEvent.event_action`: informs the vessel of the occurrence
(`vessel.event_occurrence(self)`, an external bookkeeping call modelled
from the spec as leaving location and cargo untouched) and then sets
`vessel.location = self.location`. -/
def vesselEventAction (e : Ev) (vs : VesselState) : VesselState :=
  match vesselEventLocation e with
  | some lv => { vs with location := lv }
  | none => vs

/- The trade time-window violations `ArrivalEvent.event_action` can log. -/
inductive TWViolation where
  | loadingBeforeEarliestStart
  | loadingAfterLatestFinish
  | unloadingBeforeEarliestStart
  | unloadingAfterLatestFinish
deriving DecidableEq

/- The `if`/`elif` window checks of `ArrivalEvent.event_action`, as the list
of violations reported to the logger. -/
def arrivalViolations (t : STime) (tr : Trade) (isPickup : Bool) :
    List TWViolation :=
  if isPickup then
    if (match tr.twPickupEarliest with
        | some a => STime.lt t (.fin a)
        | none => false) then
      [.loadingBeforeEarliestStart]
    else if (match tr.twPickupLatest with
        | some b => STime.lt (.fin b) t
        | none => false) then
      [.loadingAfterLatestFinish]
    else []
  else
    if (match tr.twDropoffEarliest with
        | some a => STime.lt t (.fin a)
        | none => false) then
      [.unloadingBeforeEarliestStart]
    else if (match tr.twDropoffLatest with
        | some b => STime.lt (.fin b) t
        | none => false) then
      [.unloadingAfterLatestFinish]
    else []

/- `ArrivalEvent.event_action`: run `VesselEvent.event_action` (location
update), then log any time-window violation; nothing is raised, no state is
rolled back, and the cargo manifest is never touched. -/
def arrivalEventAction (e : Ev) (vs : VesselState) :
    VesselState × List TWViolation :=
  match e with
  | .arrival t _ _ _ tr p => (vesselEventAction e vs, arrivalViolations t tr p)
  | _ => (vs, [])

/- `CargoTransferEvent.event_action`: run `VesselEvent.event_action`, then
load (pickup) or unload (drop-off) the trade's cargo. -/
def cargoTransferEventAction (e : Ev) (vs : VesselState) : VesselState :=
  match e with
  | .cargoTransfer _ _ _ _ tr p =>
    let vs1 := vesselEventAction e vs
    if p then { vs1 with cargo := loadCargo vs1.cargo tr.cargo_type tr.amount }
    else { vs1 with cargo := unloadCargo vs1.cargo tr.cargo_type tr.amount }
  | _ => vs

/-
The engine facets the announcement events consume: the shipping
collaborator's `get_trades`, the roster `engine.shipping_companies`, and the
world clock (companies are identified by name).
-/
structure Engine where
  shipping : STime → List Trade
  shippingCompanies : List String
  currentTime : ℚ

/- One `market.inform_future_trades(trades, time, companies)` call,
recorded as data. -/
structure MarketInform where
  trades : List Trade
  time : STime
  companies : List String
deriving DecidableEq

/-- Modelled from the spec: `mable.util.format_time` is repository code not
under `src/`; it renders a time value for a log label, modelled as a plain
rendering of the number. -/
def formatTime : STime → String
  | .fin q => toString q
  | .inf => "inf"

/-- Modelled from the spec: `engine.class_factory.generate_event_cargo(t)`
is repository code not under `src/`.  Per spec §4.3 the announcement event
"schedules its own successor at that same future time", so the factory is
modelled as producing the next cargo-announcement event scheduled at the
given time. -/
def generateEventCargo (t : STime) : Ev :=
  .cargoAnnouncement t none t

/- `CargoAnnouncementEvent.event_action`: fetch the trades available at
`_cargo_available_time`, inform the market of exactly those trades for that
time together with the companies, update `self.info`, and `put` the
generated successor event into the queue. -/
def cargoAnnouncementAction (cargoAvailableTime : STime) (eng : Engine)
    (q : List EventItem) :
    MarketInform × Option String × Except SchedError (List EventItem × Option VLoc) :=
  let allTrades := eng.shipping cargoAvailableTime
  (⟨allTrades, cargoAvailableTime, eng.shippingCompanies⟩,
   some ("#Trades: " ++ toString allTrades.length ++ "." ++ " For time "
     ++ formatTime cargoAvailableTime),
   queuePut q (generateEventCargo cargoAvailableTime) eng.currentTime)

/- `FirstCargoAnnouncementEvent.event_action`: same announcement for
`_cargo_available_time_second_cargo`, but puts two events: the time-0
announcement and the one for the second cargo time. -/
def firstCargoAnnouncementAction (cargoAvailableTimeSecondCargo : STime)
    (eng : Engine) (q : List EventItem) :
    MarketInform × Option String × Except SchedError (List EventItem × Option VLoc) :=
  let allTradesLater := eng.shipping cargoAvailableTimeSecondCargo
  (⟨allTradesLater, cargoAvailableTimeSecondCargo, eng.shippingCompanies⟩,
   some ("#Trades: " ++ toString allTradesLater.length ++ "." ++ " For time "
     ++ formatTime cargoAvailableTimeSecondCargo),
   match queuePut q (generateEventCargo (.fin 0)) eng.currentTime with
   | .error err => .error err
   | .ok (q1, _) =>
       queuePut q1 (generateEventCargo cargoAvailableTimeSecondCargo)
         eng.currentTime)

/-
Harness for stating queue-ordering claims: push a whole list of items, and
drain a queue by repeated `extract_next` (the driver loop).  `drainFuel`
uses explicit fuel; `q.length` steps always exhaust the queue.
-/
def pushAll (items : List EventItem) : List EventItem :=
  items.foldl heappush []

def drainFuel : Nat → List EventItem → List EventItem
  | 0, _ => []
  | n + 1, q =>
    match heappop q with
    | none => []
    | some (it, rest) => it :: drainFuel n rest

def drain (q : List EventItem) : List EventItem :=
  drainFuel q.length q

/- The binary-heap shape invariant CPython's `heapq` maintains: every
non-root entry is no smaller (by time) than its parent. -/
def IsHeap (l : List EventItem) : Prop :=
  ∀ j, j < l.length → 0 < j →
    STime.le (g l ((j - 1) / 2)).time (g l j).time = true

instance (l : List EventItem) : Decidable (IsHeap l) := by
  unfold IsHeap
  exact Nat.decidableBallLT _ _

/- Heap property away from a "hole" position whose content is about to be
overwritten (the state CPython's sift loops maintain). -/
def HeapExceptAt (l : List EventItem) (hole : Nat) : Prop :=
  ∀ j, j < l.length → 0 < j → j ≠ hole → (j - 1) / 2 ≠ hole →
    STime.le (g l ((j - 1) / 2)).time (g l j).time = true

/- When the hole is not the root, its parent is already no larger than the
hole's children (so shifting the parent into the hole keeps the order). -/
def BridgeAt (l : List EventItem) (hole : Nat) : Prop :=
  0 < hole → ∀ j, j < l.length → (j - 1) / 2 = hole →
    STime.le (g l ((hole - 1) / 2)).time (g l j).time = true

/- The pending item is no larger than the hole's children. -/
def BelowAll (x : EventItem) (l : List EventItem) (hole : Nat) : Prop :=
  ∀ j, j < l.length → 0 < j → (j - 1) / 2 = hole →
    STime.le x.time (g l j).time = true

/- The claim-side reading of "executed outside the applicable bound of the
trade's time window": before the earliest or after the latest bound of the
pickup pair (for a pickup) or of the drop-off pair (for a drop-off),
bounds set to `None` being unconstrained. -/
def outsideWindowB (t : STime) (tr : Trade) (isPickup : Bool) : Bool :=
  if isPickup then
    (match tr.twPickupEarliest with
      | some a => STime.lt t (.fin a)
      | none => false) ||
    (match tr.twPickupLatest with
      | some b => STime.lt (.fin b) t
      | none => false)
  else
    (match tr.twDropoffEarliest with
      | some a => STime.lt t (.fin a)
      | none => false) ||
    (match tr.twDropoffLatest with
      | some b => STime.lt (.fin b) t
      | none => false)

/-
Theorems.  First the order facts about simulated times, then index/content
lemmas about `heapq`'s list surgery, then the heap-invariant lemmas, and
finally the claims.
-/

theorem STime.le_refl (a : STime) : a.le a = true := by
  cases a <;> simp [STime.le]

theorem STime.le_trans {a b c : STime} (h1 : a.le b = true)
    (h2 : b.le c = true) : a.le c = true := by
  cases a <;> cases b <;> cases c <;> simp_all [STime.le]
  exact h1.trans h2

theorem STime.lt_false_iff {a b : STime} : a.lt b = false ↔ b.le a = true := by
  cases a <;> cases b <;> simp [STime.lt, STime.le]

theorem STime.lt_imp_le {a b : STime} (h : a.lt b = true) : a.le b = true := by
  cases a <;> cases b <;> simp_all [STime.lt, STime.le]
  exact le_of_lt h

theorem g_eq_getElem (l : List EventItem) (i : Nat) (h : i < l.length) :
    g l i = l[i] := by
  simp [g, List.getD_eq_getElem?_getD, List.getElem?_eq_getElem h]

theorem g_set_self (l : List EventItem) (i : Nat) (h : i < l.length)
    (a : EventItem) : g (l.set i a) i = a := by
  rw [g_eq_getElem _ _ (by simpa using h)]
  simp [List.getElem_set_self]

theorem g_set_ne (l : List EventItem) (i j : Nat) (hne : j ≠ i)
    (a : EventItem) : g (l.set i a) j = g l j := by
  simp [g, List.getD_eq_getElem?_getD, List.getElem?_set_ne (Ne.symm hne)]

theorem g_append_left (l l2 : List EventItem) (j : Nat) (h : j < l.length) :
    g (l ++ l2) j = g l j := by
  simp [g, List.getD_eq_getElem?_getD, List.getElem?_append_left h]

theorem g_append_last (l : List EventItem) (x : EventItem) :
    g (l ++ [x]) l.length = x := by
  rw [g_eq_getElem _ _ (by simp)]
  simp

theorem g_dropLast (l : List EventItem) (j : Nat) (h : j < l.length - 1) :
    g l.dropLast j = g l j := by
  simp only [g, List.getD_eq_getElem?_getD]
  rw [List.getElem?_eq_getElem (by simpa using h),
    List.getElem?_eq_getElem (by omega)]
  simp [List.getElem_dropLast]

theorem ms_set (l : List EventItem) (i : Nat) (h : i < l.length)
    (a : EventItem) :
    (↑(l.set i a) : Multiset EventItem) + {g l i} = ↑l + {a} := by
  induction l generalizing i with
  | nil => simp at h
  | cons y ys ih =>
    cases i with
    | zero =>
      have hg : g (y :: ys) 0 = y := by simp [g]
      simp only [List.set_cons_zero, hg, ← Multiset.cons_coe,
        ← Multiset.singleton_add]
      abel
    | succ n =>
      have hn : n < ys.length := by simpa using h
      have := ih n hn
      simp only [List.set, g, List.getD_eq_getElem?_getD, List.getElem?_cons_succ] at *
      calc (↑(y :: ys.set n a) : Multiset EventItem) + {ys[n]?.getD default}
          = (y ::ₘ ↑(ys.set n a)) + {ys[n]?.getD default} := by rfl
        _ = y ::ₘ (↑(ys.set n a) + {ys[n]?.getD default}) := by
              rw [Multiset.cons_add]
        _ = y ::ₘ (↑ys + {a}) := by rw [this]
        _ = (y ::ₘ ↑ys) + {a} := by rw [Multiset.cons_add]
        _ = ↑(y :: ys) + {a} := by rfl

theorem sdGo_congr : ∀ (f1 f2 : Nat) (l : List EventItem) (s p : Nat)
    (x : EventItem), p ≤ f1 → p ≤ f2 → sdGo f1 l s p x = sdGo f2 l s p x := by
  intro f1
  induction f1 with
  | zero =>
    intro f2 l s p x h1 h2
    have hp : p = 0 := by omega
    subst hp
    cases f2 with
    | zero => rfl
    | succ f2 => simp [sdGo]
  | succ f1 ih =>
    intro f2 l s p x h1 h2
    cases f2 with
    | zero =>
      have hp : p = 0 := by omega
      subst hp
      simp [sdGo]
    | succ f2 =>
      simp only [sdGo]
      by_cases hsp : s < p
      · rw [if_pos hsp, if_pos hsp]
        by_cases hlt : EventItem.ltPy x (g l ((p - 1) / 2)) = true
        · rw [if_pos hlt, if_pos hlt]
          exact ih f2 _ s _ x (by omega) (by omega)
        · rw [if_neg hlt, if_neg hlt]
      · rw [if_neg hsp, if_neg hsp]

theorem sdLoop_unfold (l : List EventItem) (s p : Nat) (x : EventItem) :
    sdLoop l s p x =
      if s < p then
        if EventItem.ltPy x (g l ((p - 1) / 2)) then
          sdLoop (l.set p (g l ((p - 1) / 2))) s ((p - 1) / 2) x
        else (l, p)
      else (l, p) := by
  unfold sdLoop
  cases p with
  | zero => simp [sdGo]
  | succ p =>
    simp only [sdGo]
    by_cases hsp : s < p + 1
    · rw [if_pos hsp, if_pos hsp]
      by_cases hlt : EventItem.ltPy x (g l ((p + 1 - 1) / 2)) = true
      · rw [if_pos hlt, if_pos hlt]
        exact sdGo_congr p _ _ s _ x (by omega) (by omega)
      · rw [if_neg hlt, if_neg hlt]
    · rw [if_neg hsp, if_neg hsp]

theorem sdLoop_length (l : List EventItem) (s p : Nat) (x : EventItem) :
    (sdLoop l s p x).1.length = l.length := by
  induction p using Nat.strong_induction_on generalizing l with
  | _ p ih =>
    rw [sdLoop_unfold]
    split
    · split
      · rw [ih _ (by omega)]
        simp
      · rfl
    · rfl

theorem sdLoop_pos_le (l : List EventItem) (s p : Nat) (x : EventItem) :
    (sdLoop l s p x).2 ≤ p := by
  induction p using Nat.strong_induction_on generalizing l with
  | _ p ih =>
    rw [sdLoop_unfold]
    split
    · split
      · exact le_trans (ih _ (by omega) _) (by omega)
      · exact Nat.le_refl p
    · exact Nat.le_refl p

theorem sdLoop_ms (p : Nat) :
    ∀ (l : List EventItem) (x : EventItem), p < l.length →
    ∀ v : EventItem,
      (↑((sdLoop l 0 p x).1.set (sdLoop l 0 p x).2 v) : Multiset EventItem)
        = ↑(l.set p v) := by
  induction p using Nat.strong_induction_on with
  | _ p ih =>
    intro l x hp v
    rcases Nat.eq_zero_or_pos p with hp0 | hp0
    · subst hp0
      rw [sdLoop_unfold, if_neg (by omega)]
    · rw [sdLoop_unfold, if_pos hp0]
      by_cases hlt : EventItem.ltPy x (g l ((p - 1) / 2)) = true
      · rw [if_pos hlt]
        have hpp : (p - 1) / 2 < p := by omega
        rw [ih _ hpp _ x (by simpa using lt_trans hpp hp) v]
        have hne : (p - 1) / 2 ≠ p := by omega
        have e1 := ms_set (l.set p (g l ((p - 1) / 2))) ((p - 1) / 2)
          (by simpa using lt_trans hpp hp) v
        rw [g_set_ne l p _ hne] at e1
        have e2 := ms_set l p hp (g l ((p - 1) / 2))
        have e3 := ms_set l p hp v
        have key : (↑((l.set p (g l ((p - 1) / 2))).set ((p - 1) / 2) v)
              : Multiset EventItem) + ({g l ((p - 1) / 2)} + {g l p})
            = ↑(l.set p v) + ({g l ((p - 1) / 2)} + {g l p}) := by
          calc (↑((l.set p (g l ((p - 1) / 2))).set ((p - 1) / 2) v)
                : Multiset EventItem) + ({g l ((p - 1) / 2)} + {g l p})
              = ((↑((l.set p (g l ((p - 1) / 2))).set ((p - 1) / 2) v)
                  : Multiset EventItem) + {g l ((p - 1) / 2)}) + {g l p} := by
                rw [add_assoc]
            _ = ((↑(l.set p (g l ((p - 1) / 2))) : Multiset EventItem) + {v})
                  + {g l p} := by rw [e1]
            _ = ((↑(l.set p (g l ((p - 1) / 2))) : Multiset EventItem)
                  + {g l p}) + {v} := by rw [add_right_comm]
            _ = ((↑l : Multiset EventItem) + {g l ((p - 1) / 2)}) + {v} := by
                rw [e2]
            _ = ((↑l : Multiset EventItem) + {v}) + {g l ((p - 1) / 2)} := by
                rw [add_right_comm]
            _ = ((↑(l.set p v) : Multiset EventItem) + {g l p})
                  + {g l ((p - 1) / 2)} := by rw [e3]
            _ = (↑(l.set p v) : Multiset EventItem)
                  + ({g l ((p - 1) / 2)} + {g l p}) := by
                rw [add_assoc, add_comm {g l p} _]
        exact add_right_cancel key
      · rw [if_neg hlt]

theorem sdLoop_heap (p : Nat) :
    ∀ (l : List EventItem) (x : EventItem), p < l.length →
    HeapExceptAt l p → BridgeAt l p → BelowAll x l p →
    IsHeap ((sdLoop l 0 p x).1.set (sdLoop l 0 p x).2 x) := by
  induction p using Nat.strong_induction_on with
  | _ p ih =>
    intro l x hp hhx hbr hch
    rcases Nat.eq_zero_or_pos p with hp0 | hp0
    · subst hp0
      rw [sdLoop_unfold, if_neg (by omega)]
      intro j hj hj0
      have hj' : j < l.length := by simpa using hj
      by_cases hpj : (j - 1) / 2 = 0
      · rw [hpj, g_set_self l 0 hp x, g_set_ne l 0 j (by omega) x]
        exact hch j hj' hj0 hpj
      · rw [g_set_ne l 0 _ hpj x, g_set_ne l 0 j (by omega) x]
        exact hhx j hj' hj0 (by omega) hpj
    · rw [sdLoop_unfold, if_pos hp0]
      by_cases hlt : EventItem.ltPy x (g l ((p - 1) / 2)) = true
      · rw [if_pos hlt]
        have hxle : STime.le x.time (g l ((p - 1) / 2)).time = true := by
          simp only [EventItem.ltPy] at hlt
          exact STime.lt_imp_le hlt
        have hpp : (p - 1) / 2 < p := by omega
        have hplen : (l.set p (g l ((p - 1) / 2))).length = l.length := by simp
        apply ih _ hpp _ x (by omega)
        · -- HeapExceptAt (l.set p parent) parentpos
          intro j hj hj0 hjne hpjne
          have hj' : j < l.length := by omega
          by_cases hjp : j = p
          · exact absurd (by omega : (j - 1) / 2 = (p - 1) / 2) hpjne
          · by_cases hpjp : (j - 1) / 2 = p
            · rw [hpjp, g_set_self l p hp _, g_set_ne l p j hjp _]
              exact hbr hp0 j hj' hpjp
            · rw [g_set_ne l p _ hpjp _, g_set_ne l p j hjp _]
              exact hhx j hj' hj0 hjp hpjp
        · -- BridgeAt (l.set p parent) parentpos
          intro hpp0 j hj hpj
          have hj' : j < l.length := by omega
          have hgp_ne : ((p - 1) / 2 - 1) / 2 ≠ p := by omega
          rw [g_set_ne l p _ hgp_ne _]
          have h1 : STime.le (g l (((p - 1) / 2 - 1) / 2)).time
              (g l ((p - 1) / 2)).time = true :=
            hhx ((p - 1) / 2) (by omega) hpp0 (by omega) (by omega)
          by_cases hjp : j = p
          · rw [hjp, g_set_self l p hp _]
            exact h1
          · rw [g_set_ne l p j hjp _]
            have hj0 : 0 < j := by omega
            have h2 : STime.le (g l ((p - 1) / 2)).time (g l j).time = true := by
              have h2a := hhx j hj' hj0 hjp (by omega)
              rwa [hpj] at h2a
            exact STime.le_trans h1 h2
        · -- BelowAll x (l.set p parent) parentpos
          intro j hj hj0 hpj
          have hj' : j < l.length := by omega
          by_cases hjp : j = p
          · rw [hjp, g_set_self l p hp _]
            exact hxle
          · rw [g_set_ne l p j hjp _]
            have h2 : STime.le (g l ((p - 1) / 2)).time (g l j).time = true := by
              have h2a := hhx j hj' hj0 hjp (by omega)
              rwa [hpj] at h2a
            exact STime.le_trans hxle h2
      · rw [if_neg hlt]
        have hle : STime.le (g l ((p - 1) / 2)).time x.time = true := by
          simp only [EventItem.ltPy] at hlt
          exact STime.lt_false_iff.mp (by simpa using hlt)
        intro j hj hj0
        have hj' : j < l.length := by simpa using hj
        by_cases hjp : j = p
        · subst hjp
          rw [g_set_ne l j _ (by omega) x, g_set_self l j hp x]
          exact hle
        · by_cases hpjp : (j - 1) / 2 = p
          · rw [hpjp, g_set_self l p hp x, g_set_ne l p j hjp x]
            exact hch j hj' hj0 hpjp
          · rw [g_set_ne l p _ hpjp x, g_set_ne l p j hjp x]
            exact hhx j hj' hj0 hjp hpjp

theorem suChild_spec (l : List EventItem) (pos : Nat)
    (h : 2 * pos + 1 < l.length) :
    (suChild l pos = 2 * pos + 1 ∨ suChild l pos = 2 * pos + 2) ∧
    suChild l pos < l.length ∧
    ∀ j, j < l.length → 0 < j → (j - 1) / 2 = pos →
      STime.le (g l (suChild l pos)).time (g l j).time = true := by
  unfold suChild
  split
  · next hcond =>
    simp only [Bool.and_eq_true, decide_eq_true_eq, Bool.not_eq_true'] at hcond
    obtain ⟨h2, hfl⟩ := hcond
    have hle : STime.le (g l (2 * pos + 2)).time (g l (2 * pos + 1)).time
        = true := by
      simp only [EventItem.ltPy] at hfl
      exact STime.lt_false_iff.mp hfl
    refine ⟨Or.inr rfl, h2, ?_⟩
    intro j hj hj0 hpj
    have hj12 : j = 2 * pos + 1 ∨ j = 2 * pos + 2 := by omega
    rcases hj12 with rfl | rfl
    · exact hle
    · exact STime.le_refl _
  · next hcond =>
    simp only [Bool.and_eq_true, decide_eq_true_eq, Bool.not_eq_true',
      not_and] at hcond
    refine ⟨Or.inl rfl, h, ?_⟩
    intro j hj hj0 hpj
    have hj12 : j = 2 * pos + 1 ∨ j = 2 * pos + 2 := by omega
    rcases hj12 with rfl | rfl
    · exact STime.le_refl _
    · have hlt : EventItem.ltPy (g l (2 * pos + 1)) (g l (2 * pos + 2))
          = true := by
        cases hb : EventItem.ltPy (g l (2 * pos + 1)) (g l (2 * pos + 2)) with
        | false => exact absurd hb (hcond hj)
        | true => rfl
      simp only [EventItem.ltPy] at hlt
      exact STime.lt_imp_le hlt

theorem suGo_congr : ∀ (f1 f2 : Nat) (l : List EventItem) (pos : Nat),
    l.length - pos ≤ f1 → l.length - pos ≤ f2 →
    suGo f1 l pos = suGo f2 l pos := by
  intro f1
  induction f1 with
  | zero =>
    intro f2 l pos h1 h2
    cases f2 with
    | zero => rfl
    | succ f2 =>
      simp only [suGo]
      rw [if_neg (by omega)]
  | succ f1 ih =>
    intro f2 l pos h1 h2
    cases f2 with
    | zero =>
      simp only [suGo]
      rw [if_neg (by omega)]
    | succ f2 =>
      simp only [suGo]
      by_cases hc : 2 * pos + 1 < l.length
      · rw [if_pos hc, if_pos hc]
        obtain ⟨hcf, hcl, _⟩ := suChild_spec l pos hc
        have hgt : pos < suChild l pos := by omega
        apply ih
        · simp only [List.length_set]
          omega
        · simp only [List.length_set]
          omega
      · rw [if_neg hc, if_neg hc]

theorem suLoop_unfold (l : List EventItem) (pos : Nat) :
    suLoop l pos =
      if 2 * pos + 1 < l.length then
        suLoop (l.set pos (g l (suChild l pos))) (suChild l pos)
      else (l, pos) := by
  unfold suLoop
  cases l with
  | nil =>
    rw [if_neg (by simp)]
    rfl
  | cons a as =>
    by_cases hc : 2 * pos + 1 < (a :: as).length
    · rw [if_pos hc]
      obtain ⟨hcf, hcl, _⟩ := suChild_spec (a :: as) pos hc
      have hgt : pos < suChild (a :: as) pos := by omega
      rw [List.length_cons]
      simp only [suGo]
      rw [if_pos (by simpa using hc)]
      apply suGo_congr
      · simp only [List.length_set, List.length_cons]
        omega
      · simp only [List.length_set, List.length_cons]
        omega
    · rw [if_neg hc, List.length_cons]
      simp only [suGo]
      rw [if_neg (by simpa using hc)]

theorem suLoop_main :
    ∀ (n : Nat) (l : List EventItem) (pos : Nat), l.length - pos ≤ n →
    pos < l.length →
    (suLoop l pos).1.length = l.length ∧
    (suLoop l pos).2 < l.length ∧
    l.length ≤ 2 * (suLoop l pos).2 + 1 ∧
    (∀ v, (↑((suLoop l pos).1.set (suLoop l pos).2 v) : Multiset EventItem)
        = ↑(l.set pos v)) ∧
    (HeapExceptAt l pos → BridgeAt l pos →
      HeapExceptAt (suLoop l pos).1 (suLoop l pos).2 ∧
      BridgeAt (suLoop l pos).1 (suLoop l pos).2) := by
  intro n
  induction n with
  | zero =>
    intro l pos hfuel hpos
    exact absurd hpos (by omega)
  | succ n ih =>
    intro l pos hfuel hpos
    by_cases h : 2 * pos + 1 < l.length
    · obtain ⟨hcform, hclen, hcmin⟩ := suChild_spec l pos h
      have hcgt : pos < suChild l pos := by omega
      have hcp : (suChild l pos - 1) / 2 = pos := by omega
      have hlen' : (l.set pos (g l (suChild l pos))).length = l.length := by
        simp
      have ih' := ih (l.set pos (g l (suChild l pos))) (suChild l pos)
        (by simp only [List.length_set]; omega) (by rw [hlen']; exact hclen)
      rw [suLoop_unfold, if_pos h]
      obtain ⟨ilen, ipos, ileaf, ims, iinv⟩ := ih'
      rw [hlen'] at ilen ipos ileaf
      refine ⟨ilen, ipos, ileaf, ?_, ?_⟩
      · intro v
        rw [ims v]
        have hcnepos : suChild l pos ≠ pos := by omega
        have e1 := ms_set (l.set pos (g l (suChild l pos))) (suChild l pos)
          (by rw [hlen']; exact hclen) v
        rw [g_set_ne l pos _ hcnepos] at e1
        have e2 := ms_set l pos hpos (g l (suChild l pos))
        have e3 := ms_set l pos hpos v
        have key : (↑((l.set pos (g l (suChild l pos))).set (suChild l pos) v)
              : Multiset EventItem) + ({g l (suChild l pos)} + {g l pos})
            = ↑(l.set pos v) + ({g l (suChild l pos)} + {g l pos}) := by
          calc (↑((l.set pos (g l (suChild l pos))).set (suChild l pos) v)
                : Multiset EventItem) + ({g l (suChild l pos)} + {g l pos})
              = ((↑((l.set pos (g l (suChild l pos))).set (suChild l pos) v)
                  : Multiset EventItem) + {g l (suChild l pos)}) + {g l pos} := by
                rw [add_assoc]
            _ = ((↑(l.set pos (g l (suChild l pos))) : Multiset EventItem) + {v})
                  + {g l pos} := by rw [e1]
            _ = ((↑(l.set pos (g l (suChild l pos))) : Multiset EventItem)
                  + {g l pos}) + {v} := by rw [add_right_comm]
            _ = ((↑l : Multiset EventItem) + {g l (suChild l pos)}) + {v} := by
                rw [e2]
            _ = ((↑l : Multiset EventItem) + {v}) + {g l (suChild l pos)} := by
                rw [add_right_comm]
            _ = ((↑(l.set pos v) : Multiset EventItem) + {g l pos})
                  + {g l (suChild l pos)} := by rw [e3]
            _ = (↑(l.set pos v) : Multiset EventItem)
                  + ({g l (suChild l pos)} + {g l pos}) := by
                rw [add_assoc, add_comm {g l pos} _]
        exact add_right_cancel key
      · intro hhx hbr
        apply iinv
        · -- HeapExceptAt (l.set pos child) (suChild l pos)
          intro j hj hj0 hjne hpjne
          have hj' : j < l.length := by rwa [hlen'] at hj
          by_cases hjpos : j = pos
          · have hpos0 : 0 < pos := by omega
            have hppne : (pos - 1) / 2 ≠ pos := by omega
            rw [hjpos, g_set_ne l pos _ (by omega), g_set_self l pos hpos _]
            exact hbr hpos0 (suChild l pos) hclen hcp
          · by_cases hpjpos : (j - 1) / 2 = pos
            · rw [hpjpos, g_set_self l pos hpos _, g_set_ne l pos j hjpos _]
              exact hcmin j hj' hj0 hpjpos
            · rw [g_set_ne l pos _ hpjpos _, g_set_ne l pos j hjpos _]
              exact hhx j hj' hj0 hjpos hpjpos
        · -- BridgeAt (l.set pos child) (suChild l pos)
          intro hc0 j hj hpj
          have hj' : j < l.length := by rwa [hlen'] at hj
          have hj0 : 0 < j := by omega
          have hjne_pos : j ≠ pos := by omega
          rw [hcp, g_set_self l pos hpos _, g_set_ne l pos j hjne_pos _]
          have h2 := hhx j hj' hj0 hjne_pos (by omega)
          rwa [hpj] at h2
    · rw [suLoop_unfold, if_neg h]
      exact ⟨rfl, hpos, by omega, fun v => rfl, fun hhx hbr => ⟨hhx, hbr⟩⟩

theorem isHeap_heapExceptAt {l : List EventItem} (h : IsHeap l) (hole : Nat) :
    HeapExceptAt l hole :=
  fun j hj hj0 _ _ => h j hj hj0

theorem heapExceptAt_set_hole {l : List EventItem} {hole : Nat}
    (v : EventItem) (h : HeapExceptAt l hole) :
    HeapExceptAt (l.set hole v) hole := by
  intro j hj hj0 hjne hpjne
  rw [g_set_ne l hole j hjne v, g_set_ne l hole _ hpjne v]
  exact h j (by simpa using hj) hj0 hjne hpjne

theorem bridgeAt_set_hole {l : List EventItem} {hole : Nat} (v : EventItem)
    (h : BridgeAt l hole) : BridgeAt (l.set hole v) hole := by
  intro h0 j hj hpj
  rw [g_set_ne l hole _ (by omega) v, g_set_ne l hole j (by omega) v]
  exact h h0 j (by simpa using hj) hpj

theorem root_min {l : List EventItem} (h : IsHeap l) :
    ∀ i, i < l.length → STime.le (g l 0).time (g l i).time = true := by
  intro i
  induction i using Nat.strong_induction_on with
  | _ i ih =>
    intro hi
    rcases Nat.eq_zero_or_pos i with rfl | hi0
    · exact STime.le_refl _
    · exact STime.le_trans (ih ((i - 1) / 2) (by omega) (by omega)) (h i hi hi0)

theorem siftup_len_ms (l : List EventItem) (hne : 0 < l.length) :
    (siftup l 0).length = l.length ∧
    (↑(siftup l 0) : Multiset EventItem) = ↑l := by
  obtain ⟨ilen, ipos, _, ims, _⟩ := suLoop_main l.length l 0 (by omega) hne
  unfold siftup siftdown
  have hr2 : (suLoop l 0).2 < ((suLoop l 0).1.set (suLoop l 0).2 (g l 0)).length := by
    simp only [List.length_set]
    rw [ilen]
    exact ipos
  have hgl2 : g ((suLoop l 0).1.set (suLoop l 0).2 (g l 0)) (suLoop l 0).2
      = g l 0 :=
    g_set_self (suLoop l 0).1 (suLoop l 0).2 (by rw [ilen]; exact ipos) _
  rw [hgl2]
  constructor
  · rw [List.length_set, sdLoop_length, List.length_set, ilen]
  · rw [sdLoop_ms _ _ _ hr2, List.set_set, ims (g l 0)]
    exact add_right_cancel (ms_set l 0 hne (g l 0))

theorem siftup_heap (l : List EventItem) (hne : 0 < l.length)
    (hhx : HeapExceptAt l 0) : IsHeap (siftup l 0) := by
  obtain ⟨ilen, ipos, ileaf, _, iinv⟩ := suLoop_main l.length l 0 (by omega) hne
  have hbr0 : BridgeAt l 0 := fun h0 => absurd h0 (lt_irrefl 0)
  obtain ⟨hhx', hbr'⟩ := iinv hhx hbr0
  unfold siftup siftdown
  have hr2' : (suLoop l 0).2 < (suLoop l 0).1.length := by
    rw [ilen]
    exact ipos
  have hgl2 : g ((suLoop l 0).1.set (suLoop l 0).2 (g l 0)) (suLoop l 0).2
      = g l 0 :=
    g_set_self (suLoop l 0).1 (suLoop l 0).2 hr2' _
  rw [hgl2]
  apply sdLoop_heap (suLoop l 0).2 _ (g l 0) (by simpa using hr2')
  · exact heapExceptAt_set_hole _ hhx'
  · exact bridgeAt_set_hole _ hbr'
  · intro j hj hj0 hpj
    exfalso
    simp only [List.length_set, ilen] at hj
    omega

theorem heappush_isHeap {l : List EventItem} (h : IsHeap l) (x : EventItem) :
    IsHeap (heappush l x) := by
  unfold heappush siftdown
  have hlen : l.length < (l ++ [x]).length := by simp
  rw [g_append_last l x]
  apply sdLoop_heap l.length (l ++ [x]) x hlen
  · intro j hj hj0 hjne hpjne
    have hj' : j < l.length := by
      simp only [List.length_append, List.length_cons, List.length_nil] at hj
      omega
    rw [g_append_left l [x] j hj', g_append_left l [x] _ (by omega)]
    exact h j hj' hj0
  · intro h0 j hj hpj
    exfalso
    simp only [List.length_append, List.length_cons, List.length_nil] at hj
    omega
  · intro j hj hj0 hpj
    exfalso
    simp only [List.length_append, List.length_cons, List.length_nil] at hj
    omega

theorem heappush_ms (l : List EventItem) (x : EventItem) :
    (↑(heappush l x) : Multiset EventItem) = x ::ₘ ↑l := by
  unfold heappush siftdown
  rw [g_append_last l x]
  rw [sdLoop_ms l.length (l ++ [x]) x (by simp) x]
  have h1 := ms_set (l ++ [x]) l.length (by simp) x
  rw [g_append_last l x] at h1
  rw [add_right_cancel h1]
  rw [Multiset.coe_eq_coe.mpr (List.perm_append_singleton x l)]
  rfl

theorem heappush_length (l : List EventItem) (x : EventItem) :
    (heappush l x).length = l.length + 1 := by
  unfold heappush siftdown
  rw [List.length_set, sdLoop_length]
  simp

theorem heappop_main (l : List EventItem) (it : EventItem)
    (rest : List EventItem) (hpop : heappop l = some (it, rest)) :
    rest.length = l.length - 1 ∧
    (↑l : Multiset EventItem) = it ::ₘ ↑rest ∧
    (IsHeap l → IsHeap rest ∧ ∀ y ∈ l, STime.le it.time y.time = true) := by
  match l with
  | [] => simp [heappop] at hpop
  | x :: xs =>
    rw [heappop] at hpop
    by_cases hxs : xs = []
    · subst hxs
      rw [if_pos (by simp)] at hpop
      simp only [List.dropLast_single, List.getLast_singleton] at hpop
      obtain ⟨rfl, rfl⟩ : x = it ∧ ([] : List EventItem) = rest := by
        injection hpop with h
        injection h with h1 h2
        exact ⟨h1, h2⟩
      refine ⟨by simp, by simp, fun _ => ⟨?_, ?_⟩⟩
      · intro j hj
        simp at hj
      · intro y hy
        simp only [List.mem_singleton] at hy
        subst hy
        exact STime.le_refl _
    · have hxl : 0 < xs.length := List.length_pos.mpr hxs
      have hdll : (x :: xs).dropLast.length = xs.length := by simp
      have hdne : ¬(x :: xs).dropLast.isEmpty := by
        simp only [List.isEmpty_iff]
        intro hc
        rw [hc] at hdll
        simp at hdll
        omega
      rw [if_neg hdne] at hpop
      have hd0 : 0 < (x :: xs).dropLast.length := by omega
      have hlen2 : 0 < ((x :: xs).dropLast.set 0
          ((x :: xs).getLast (List.cons_ne_nil x xs))).length := by
        simpa using hd0
      obtain ⟨rfl, rfl⟩ : g (x :: xs).dropLast 0 = it ∧
          siftup ((x :: xs).dropLast.set 0
            ((x :: xs).getLast (List.cons_ne_nil x xs))) 0 = rest := by
        injection hpop with h
        injection h with h1 h2
        exact ⟨h1, h2⟩
      obtain ⟨hslen, hsms⟩ := siftup_len_ms _ hlen2
      have hback := List.dropLast_append_getLast (List.cons_ne_nil x xs)
      have h1 := ms_set (x :: xs).dropLast 0 hd0
        ((x :: xs).getLast (List.cons_ne_nil x xs))
      have h2 : (↑((x :: xs).dropLast) : Multiset EventItem)
          + {(x :: xs).getLast (List.cons_ne_nil x xs)} = ↑(x :: xs) := by
        rw [← Multiset.coe_singleton, Multiset.coe_add, hback]
      refine ⟨?_, ?_, ?_⟩
      · rw [hslen]
        simp
      · rw [hsms, ← Multiset.singleton_add, add_comm, h1, h2]
      · intro hheap
        constructor
        · -- the popped heap is again a heap
          apply siftup_heap _ hlen2
          apply heapExceptAt_set_hole
          intro j hj hj0 hjne hpjne
          rw [hdll] at hj
          rw [g_dropLast _ j (by simp; omega), g_dropLast _ _ (by simp; omega)]
          exact hheap j (by simp; omega) hj0
        · -- the returned item is minimal
          intro y hy
          have hg0 : g (x :: xs).dropLast 0 = g (x :: xs) 0 :=
            g_dropLast _ 0 (by simp; omega)
          rw [hg0]
          obtain ⟨i, hi, rfl⟩ := List.mem_iff_getElem.mp hy
          rw [← g_eq_getElem _ i hi]
          exact root_min hheap i hi

theorem heappop_none_iff {q : List EventItem} : heappop q = none ↔ q = [] := by
  cases q with
  | nil => simp [heappop]
  | cons a as =>
    rw [heappop]
    constructor
    · intro h
      split at h <;> simp at h
    · intro h
      simp at h

theorem drainFuel_ms : ∀ (n : Nat) (q : List EventItem), q.length ≤ n →
    (↑(drainFuel n q) : Multiset EventItem) = ↑q := by
  intro n
  induction n with
  | zero =>
    intro q h
    have hq : q = [] := List.length_eq_zero.mp (by omega)
    subst hq
    rfl
  | succ n ih =>
    intro q h
    rw [drainFuel]
    cases hpop : heappop q with
    | none =>
      have hq := heappop_none_iff.mp hpop
      subst hq
      rfl
    | some pr =>
      obtain ⟨it, rest⟩ := pr
      obtain ⟨hlen, hms, _⟩ := heappop_main q it rest hpop
      rw [← Multiset.cons_coe]
      have hq0 : q ≠ [] := by
        intro hc
        subst hc
        simp [heappop] at hpop
      have hql : 0 < q.length := List.length_pos.mpr hq0
      rw [ih rest (by omega), hms]

theorem drainFuel_sorted : ∀ (n : Nat) (q : List EventItem), q.length ≤ n →
    IsHeap q →
    List.Chain' (fun a b : EventItem => STime.le a.time b.time = true)
      (drainFuel n q) := by
  intro n
  induction n with
  | zero =>
    intro q h hheap
    exact List.chain'_nil
  | succ n ih =>
    intro q h hheap
    rw [drainFuel]
    cases hpop : heappop q with
    | none => exact List.chain'_nil
    | some pr =>
      obtain ⟨it, rest⟩ := pr
      obtain ⟨hlen, hms, hmin⟩ := heappop_main q it rest hpop
      obtain ⟨hrh, hmin'⟩ := hmin hheap
      have hq0 : q ≠ [] := by
        intro hc
        subst hc
        simp [heappop] at hpop
      have hql : 0 < q.length := List.length_pos.mpr hq0
      refine List.chain'_cons'.mpr ⟨?_, ih rest (by omega) hrh⟩
      intro b hb
      have hbmem : b ∈ drainFuel n rest := List.mem_of_mem_head? hb
      have hbrest : b ∈ rest := by
        have hcoe : b ∈ (↑(drainFuel n rest) : Multiset EventItem) := by
          simpa using hbmem
        rw [drainFuel_ms n rest (by omega)] at hcoe
        simpa using hcoe
      have hbq : b ∈ q := by
        have : b ∈ (↑q : Multiset EventItem) := by
          rw [hms]
          exact Multiset.mem_cons_of_mem (by simpa using hbrest)
        simpa using this
      exact hmin' b hbq

theorem pushAll_isHeap_aux : ∀ (items : List EventItem)
    (acc : List EventItem), IsHeap acc → IsHeap (items.foldl heappush acc) := by
  intro items
  induction items with
  | nil => exact fun acc h => h
  | cons x xs ih =>
    intro acc h
    exact ih (heappush acc x) (heappush_isHeap h x)

theorem pushAll_isHeap (items : List EventItem) : IsHeap (pushAll items) := by
  apply pushAll_isHeap_aux
  intro j hj
  simp at hj

theorem pushAll_ms_aux : ∀ (items acc : List EventItem),
    (↑(items.foldl heappush acc) : Multiset EventItem) = ↑acc + ↑items := by
  intro items
  induction items with
  | nil =>
    intro acc
    simp
  | cons x xs ih =>
    intro acc
    rw [List.foldl_cons, ih (heappush acc x), heappush_ms]
    simp only [Multiset.cons_add, Multiset.add_cons]
    exact Multiset.coe_eq_coe.mpr (List.perm_middle.symm)

theorem pushAll_ms (items : List EventItem) :
    (↑(pushAll items) : Multiset EventItem) = ↑items := by
  rw [pushAll, pushAll_ms_aux]
  simp

theorem pyListRemove_not_found (l : List EventItem) (x : EventItem)
    (h : ∀ y ∈ l, y.time ≠ x.time) : pyListRemove l x = none := by
  induction l with
  | nil => rfl
  | cons y ys ih =>
    rw [pyListRemove,
      if_neg (by simp [EventItem.beqPy, h y (List.mem_cons_self y ys)]),
      ih (fun z hz => h z (List.mem_cons_of_mem y hz))]
    rfl

theorem pyListRemove_found (l1 : List EventItem) (it : EventItem)
    (l2 : List EventItem) (x : EventItem) (hit : it.time = x.time)
    (hl1 : ∀ z ∈ l1, z.time ≠ x.time) :
    pyListRemove (l1 ++ it :: l2) x = some (l1 ++ l2) := by
  induction l1 with
  | nil =>
    simp only [List.nil_append]
    rw [pyListRemove, if_pos (by simp [EventItem.beqPy, hit])]
  | cons z zs ih =>
    have hz : z.time ≠ x.time := hl1 z (List.mem_cons_self z zs)
    simp only [List.cons_append]
    rw [pyListRemove, if_neg (by simp [EventItem.beqPy, hz]),
      ih (fun w hw => hl1 w (List.mem_cons_of_mem z hw))]
    rfl

theorem removeStep_cons_skip (c : Ev) (a : EventItem)
    (q : List EventItem) (w : List Ev) (h : c.time ≠ a.time) :
    removeStep (a :: q, w) c
      = (a :: (removeStep (q, w) c).1, (removeStep (q, w) c).2) := by
  unfold removeStep queueRemoveOne
  have hhead : EventItem.beqPy a ⟨c.time, c⟩ = false := by
    simp [EventItem.beqPy]
    exact fun hc => absurd hc.symm h
  rw [pyListRemove, if_neg (by simp [hhead])]
  cases hres : pyListRemove q ⟨c.time, c⟩ with
  | none => simp [hres]
  | some r => simp [hres]

theorem removeFold_skip (cs : List Ev) :
    ∀ (a : EventItem) (q : List EventItem) (w : List Ev),
    (∀ c ∈ cs, c.time ≠ a.time) →
    cs.foldl removeStep (a :: q, w)
      = (a :: (cs.foldl removeStep (q, w)).1,
         (cs.foldl removeStep (q, w)).2) := by
  induction cs with
  | nil =>
    intro a q w _
    rfl
  | cons c cs ih =>
    intro a q w h
    rw [List.foldl_cons, List.foldl_cons,
      removeStep_cons_skip c a q w (h c (List.mem_cons_self c cs))]
    exact ih a _ _ (fun z hz => h z (List.mem_cons_of_mem c hz))

theorem heappush_mem (l : List EventItem) (x y : EventItem) :
    y ∈ heappush l x ↔ y = x ∨ y ∈ l := by
  have hms := heappush_ms l x
  constructor
  · intro hy
    have : y ∈ (↑(heappush l x) : Multiset EventItem) := by simpa using hy
    rw [hms] at this
    rcases Multiset.mem_cons.mp this with h | h
    · exact Or.inl h
    · exact Or.inr (by simpa using h)
  · intro hy
    have : y ∈ (x ::ₘ (↑l : Multiset EventItem)) := by
      rcases hy with rfl | h
      · exact Multiset.mem_cons_self y _
      · exact Multiset.mem_cons_of_mem (by simpa using h)
    rw [← hms] at this
    simpa using this

/-- C4: inserting an event whose time is positive infinity fails with the
invalid-schedule error (`ValueError("Event with infinite deadline.")`, the
spec's `InvalidScheduleError`); no `.ok` outcome is possible, so the
schedule is unchanged and the `added_to_queue` hook is never invoked (the
check precedes the hook call in `EventQueue.put`), hence no provisional
state is published. -/
theorem C4_theorem (q : List EventItem) (e : Ev) (currentTime : ℚ)
    (h : e.time = .inf) :
    queuePut q e currentTime = .error .infiniteDeadline ∧
    ∀ q2 loc2, queuePut q e currentTime ≠ .ok (q2, loc2) := by
  unfold queuePut
  rw [if_pos h]
  exact ⟨rfl, fun q2 loc2 hc => by cases hc⟩

theorem C4_witness :
    queuePut [] (.base .inf none) 0 = .error .infiniteDeadline ∧
    ∀ q2 loc2, queuePut [] (.base .inf none) 0 ≠ .ok (q2, loc2) :=
  C4_theorem [] (.base .inf none) 0 rfl

/-- C5 (counterexample): `extract_next` is `EventQueue.get`, whose default
is `block=True`; on an empty queue the default call waits on the
`not_empty` condition (forever, in the single-threaded kernel) instead of
raising the empty-schedule error, contradicting the claim that it raises
rather than waits. -/
theorem C5_counterexample :
    queueGet true [] = GetOutcome.waitsForever ∧
    queueGet true [] ≠ GetOutcome.raisesEmpty := by
  constructor
  · rfl
  · decide

/-- C5 (amended): on an empty queue `EventQueue.get` raises `queue.Empty`
(the spec's `EmptyScheduleError`) only when called with `block=False`;
with the default `block=True` it waits forever.  On a non-empty queue it
removes and returns an event regardless of `block`. -/
theorem C5_amended :
    queueGet false [] = GetOutcome.raisesEmpty ∧
    queueGet true [] = GetOutcome.waitsForever ∧
    (∀ q : List EventItem, q ≠ [] → ∀ block : Bool,
      ∃ it rest, heappop q = some (it, rest) ∧
        queueGet block q = .ok it.event rest) := by
  refine ⟨rfl, rfl, ?_⟩
  intro q hq block
  cases hpop : heappop q with
  | none => exact absurd (heappop_none_iff.mp hpop) hq
  | some pr =>
    obtain ⟨it, rest⟩ := pr
    exact ⟨it, rest, rfl, by simp [queueGet, hpop]⟩

theorem C5_witness :
    ∃ it rest,
      heappop [(⟨.fin 1, .base (.fin 1) none⟩ : EventItem)] = some (it, rest) ∧
      queueGet true [(⟨.fin 1, .base (.fin 1) none⟩ : EventItem)]
        = .ok it.event rest :=
  C5_amended.2.2 [⟨.fin 1, .base (.fin 1) none⟩] (by decide) true

/-- C6: a `TravelEvent` (a `DurationEvent`) with occurrence time `t`
enqueued at current simulated time `T0` gets
`time_started = min t T0` (in particular `T0` when `T0 < t` and `t` when
`T0 ≥ t`); `performed_time` is `0` while the event is unstarted and equals
`t - time_started` once the hook has run (for non-negative simulated
times). -/
theorem C6_theorem (t T0 : ℚ) (v : Vessel) (o d : Location) :
    ((mkTravelEvent (.fin t) v o d).addedToQueue T0).1.timeStartedD
        = min t T0 ∧
    (T0 < t →
      ((mkTravelEvent (.fin t) v o d).addedToQueue T0).1.timeStartedD = T0) ∧
    (t ≤ T0 →
      ((mkTravelEvent (.fin t) v o d).addedToQueue T0).1.timeStartedD = t) ∧
    performedTime (.fin t) (mkTravelEvent (.fin t) v o d).timeStartedD
        = .fin 0 ∧
    (0 ≤ t → 0 ≤ T0 →
      performedTime (.fin t)
          (((mkTravelEvent (.fin t) v o d).addedToQueue T0).1.timeStartedD)
        = .fin (t - min t T0)) := by
  have hstart : ((mkTravelEvent (.fin t) v o d).addedToQueue T0).1.timeStartedD
      = durStart (.fin t) T0 := rfl
  have hmin : durStart (.fin t) T0 = min t T0 := by
    simp only [durStart]
    rcases lt_or_ge t T0 with h | h
    · rw [if_pos h, min_eq_left (le_of_lt h)]
    · rw [if_neg (not_lt.mpr h), min_eq_right h]
  refine ⟨by rw [hstart, hmin], ?_, ?_, ?_, ?_⟩
  · intro h
    rw [hstart, hmin, min_eq_right (le_of_lt h)]
  · intro h
    rw [hstart, hmin, min_eq_left h]
  · have : (mkTravelEvent (.fin t) v o d).timeStartedD = -1 := rfl
    rw [this]
    simp [performedTime, hasStarted]
  · intro ht hT0
    rw [hstart, hmin]
    have hpos : (0 : ℚ) ≤ min t T0 := le_min ht hT0
    simp [performedTime, hasStarted, hpos, STime.subQ]

theorem C6_witness :
    ((mkTravelEvent (.fin 5) ⟨1, "v"⟩ ⟨"A"⟩ ⟨"B"⟩).addedToQueue 3).1.timeStartedD
        = min 5 3 ∧
    ((3 : ℚ) < 5 →
      ((mkTravelEvent (.fin 5) ⟨1, "v"⟩ ⟨"A"⟩ ⟨"B"⟩).addedToQueue
        3).1.timeStartedD = 3) ∧
    ((5 : ℚ) ≤ 3 →
      ((mkTravelEvent (.fin 5) ⟨1, "v"⟩ ⟨"A"⟩ ⟨"B"⟩).addedToQueue
        3).1.timeStartedD = 5) ∧
    performedTime (.fin 5)
        (mkTravelEvent (.fin 5) ⟨1, "v"⟩ ⟨"A"⟩ ⟨"B"⟩).timeStartedD = .fin 0 ∧
    ((0 : ℚ) ≤ 5 → (0 : ℚ) ≤ 3 →
      performedTime (.fin 5)
          (((mkTravelEvent (.fin 5) ⟨1, "v"⟩ ⟨"A"⟩ ⟨"B"⟩).addedToQueue
            3).1.timeStartedD)
        = .fin (5 - min 5 3)) :=
  C6_theorem 5 3 ⟨1, "v"⟩ ⟨"A"⟩ ⟨"B"⟩

/-- C8: an `ArrivalEvent` executed at a time outside the applicable bound
of its trade's time window reports a violation to the logger but raises
nothing (`arrivalEventAction` is total), still updates the vessel's
location to the event's location (the trade's origin port for a pickup,
destination port for a drop-off), and leaves the cargo manifest
untouched.  `vessel.event_occurrence` is external bookkeeping, modelled
from the spec as not touching location or cargo. -/
theorem C8_theorem (t : STime) (tr : Trade) (p : Bool) (vs : VesselState)
    (i : Option String) (s : ℚ) (v : Vessel)
    (h : outsideWindowB t tr p = true) :
    (arrivalEventAction (.arrival t i s v tr p) vs).2 ≠ [] ∧
    (arrivalEventAction (.arrival t i s v tr p) vs).1.location
      = .loc (if p then tr.origin_port else tr.destination_port) ∧
    (arrivalEventAction (.arrival t i s v tr p) vs).1.cargo = vs.cargo := by
  refine ⟨?_, rfl, rfl⟩
  show arrivalViolations t tr p ≠ []
  unfold arrivalViolations
  unfold outsideWindowB at h
  cases p with
  | true =>
    rw [if_pos rfl] at h ⊢
    by_cases hc1 : (match tr.twPickupEarliest with
        | some a => STime.lt t (.fin a)
        | none => false) = true
    · rw [if_pos hc1]
      simp
    · rw [if_neg hc1]
      have hc2 : (match tr.twPickupLatest with
          | some b => STime.lt (.fin b) t
          | none => false) = true := by
        rcases Bool.or_eq_true_iff.mp h with h1 | h2
        · exact absurd h1 hc1
        · exact h2
      rw [if_pos hc2]
      simp
  | false =>
    rw [if_neg (by simp)] at h ⊢
    by_cases hc1 : (match tr.twDropoffEarliest with
        | some a => STime.lt t (.fin a)
        | none => false) = true
    · rw [if_pos hc1]
      simp
    · rw [if_neg hc1]
      have hc2 : (match tr.twDropoffLatest with
          | some b => STime.lt (.fin b) t
          | none => false) = true := by
        rcases Bool.or_eq_true_iff.mp h with h1 | h2
        · exact absurd h1 hc1
        · exact h2
      rw [if_pos hc2]
      simp

theorem C8_witness :
    (arrivalEventAction
        (.arrival (.fin 9) none (-1) ⟨1, "v"⟩
          ⟨⟨"O"⟩, ⟨"D"⟩, "oil", 100, some 5, some 8, none, none⟩ true)
        ⟨.loc ⟨"X"⟩, [("oil", 10)]⟩).2 ≠ [] ∧
    (arrivalEventAction
        (.arrival (.fin 9) none (-1) ⟨1, "v"⟩
          ⟨⟨"O"⟩, ⟨"D"⟩, "oil", 100, some 5, some 8, none, none⟩ true)
        ⟨.loc ⟨"X"⟩, [("oil", 10)]⟩).1.location
      = .loc (if true then (⟨"O"⟩ : Location) else ⟨"D"⟩) ∧
    (arrivalEventAction
        (.arrival (.fin 9) none (-1) ⟨1, "v"⟩
          ⟨⟨"O"⟩, ⟨"D"⟩, "oil", 100, some 5, some 8, none, none⟩ true)
        ⟨.loc ⟨"X"⟩, [("oil", 10)]⟩).1.cargo = [("oil", 10)] :=
  C8_theorem (.fin 9) ⟨⟨"O"⟩, ⟨"D"⟩, "oil", 100, some 5, some 8, none, none⟩
    true ⟨.loc ⟨"X"⟩, [("oil", 10)]⟩ none (-1) ⟨1, "v"⟩ (by decide)

/-- C10: two `VesselCargoEvent`s of the same concrete kind with equal time,
trade and pickup flag compare equal regardless of their vessels and info
labels; consequently the structural queue operations can match an entry
bound to a different vessel than the query: `contains`, `lookup` and
`remove` match the stored arrival bound to vessel 1 when queried with the
equal event bound to vessel 2, and `purge` of vessel 1 deletes the entry
bound to vessel 2 when it shares its time. -/
theorem C10_theorem :
    (∀ (t : STime) (tr : Trade) (p : Bool) (i1 i2 : Option String)
        (s1 s2 : ℚ) (v1 v2 : Vessel),
      Ev.eq (.arrival t i1 s1 v1 tr p) (.arrival t i2 s2 v2 tr p) = true ∧
      Ev.eq (.cargoTransfer t i1 s1 v1 tr p) (.cargoTransfer t i2 s2 v2 tr p)
        = true) ∧
    (queueContains
        [⟨.fin 4, .arrival (.fin 4) (some "x") (-1) ⟨1, "v1"⟩
          ⟨⟨"O"⟩, ⟨"D"⟩, "oil", 7, none, none, none, none⟩ true⟩]
        (.arrival (.fin 4) (some "y") (-1) ⟨2, "v2"⟩
          ⟨⟨"O"⟩, ⟨"D"⟩, "oil", 7, none, none, none, none⟩ true) = true ∧
      queueGetItem
        [⟨.fin 4, .arrival (.fin 4) (some "x") (-1) ⟨1, "v1"⟩
          ⟨⟨"O"⟩, ⟨"D"⟩, "oil", 7, none, none, none, none⟩ true⟩]
        (.arrival (.fin 4) (some "y") (-1) ⟨2, "v2"⟩
          ⟨⟨"O"⟩, ⟨"D"⟩, "oil", 7, none, none, none, none⟩ true)
        = some (.arrival (.fin 4) (some "x") (-1) ⟨1, "v1"⟩
          ⟨⟨"O"⟩, ⟨"D"⟩, "oil", 7, none, none, none, none⟩ true) ∧
      queueRemoveOne
        [⟨.fin 4, .arrival (.fin 4) (some "x") (-1) ⟨1, "v1"⟩
          ⟨⟨"O"⟩, ⟨"D"⟩, "oil", 7, none, none, none, none⟩ true⟩]
        (.arrival (.fin 4) (some "y") (-1) ⟨2, "v2"⟩
          ⟨⟨"O"⟩, ⟨"D"⟩, "oil", 7, none, none, none, none⟩ true)
        = ([], false) ∧
      queuePurge
        [⟨.fin 4, mkIdleEvent (.fin 4) ⟨2, "v2"⟩ ⟨"P"⟩⟩,
         ⟨.fin 4, mkIdleEvent (.fin 4) ⟨1, "v1"⟩ ⟨"P"⟩⟩]
        ⟨1, "v1"⟩
        = ([⟨.fin 4, mkIdleEvent (.fin 4) ⟨1, "v1"⟩ ⟨"P"⟩⟩], [])) := by
  constructor
  · intro t tr p i1 i2 s1 s2 v1 v2
    constructor
    · simp [Ev.eq, Ev.isArrival, Ev.vesselCargoEq]
    · simp [Ev.eq, Ev.isCargoTransfer, Ev.vesselCargoEq]
  · decide

/-- C7 (counterexample): the `info` label is load-bearing in the code's
equality: `Event.__eq__` (inherited by `VesselEvent` and `IdleEvent`
through `super().__eq__`) compares `info`, so two base events with the
same time and two idle events with the same time, vessel and location but
different info labels compare unequal, contradicting the claim that
equality is determined only by time and the kind-specific fields. -/
theorem C7_counterexample :
    Ev.eq (.base (.fin 1) (some "a")) (.base (.fin 1) (some "b")) = false ∧
    (Ev.base (.fin 1) (some "a")).time = (Ev.base (.fin 1) (some "b")).time ∧
    Ev.eq (.idle (.fin 1) (some "x") (-1) ⟨1, "v"⟩ ⟨"A"⟩)
      (.idle (.fin 1) (some "y") (-1) ⟨1, "v"⟩ ⟨"A"⟩) = false := by
  decide

/-- C7 (amended): event equality is structural (never by reference), but
the `info` label participates in it for every kind except
`VesselCargoEvent`s: two base events with equal time are equal iff their
info labels agree, and two `IdleEvent`s are equal iff time, vessel,
location and info all agree.  For constructor-built `IdleEvent`s the info
label is derived from the vessel and location, so equality reduces to
same time, same vessel and same location, and changing any one of those
three breaks equality. -/
theorem C7_amended :
    (∀ (t1 t2 : STime) (v1 v2 : Vessel) (l1 l2 : Location),
      Ev.eq (mkIdleEvent t1 v1 l1) (mkIdleEvent t2 v2 l2) = true ↔
        (t1 = t2 ∧ v1 = v2 ∧ l1 = l2)) ∧
    (∀ (t : STime) (i1 i2 : Option String),
      Ev.eq (.base t i1) (.base t i2) = true ↔ i1 = i2) ∧
    (∀ (t1 t2 : STime) (i1 i2 : Option String) (s1 s2 : ℚ)
        (v1 v2 : Vessel) (l1 l2 : Location),
      Ev.eq (.idle t1 i1 s1 v1 l1) (.idle t2 i2 s2 v2 l2) = true ↔
        (t1 = t2 ∧ i1 = i2 ∧ v1 = v2 ∧ l1 = l2)) := by
  refine ⟨?_, ?_, ?_⟩
  · intro t1 t2 v1 v2 l1 l2
    simp only [mkIdleEvent, Ev.eq, Ev.vesselEventEq, Ev.baseEq,
      Ev.isVesselEvent, Ev.vesselD, Ev.time, Ev.info, locStr,
      Bool.and_eq_true, decide_eq_true_eq]
    constructor
    · rintro ⟨⟨⟨_, ht, _⟩, hv⟩, hl⟩
      exact ⟨ht, by injection hv, hl⟩
    · rintro ⟨rfl, rfl, rfl⟩
      simp
  · intro t i1 i2
    simp only [Ev.eq, Ev.baseEq, Ev.time, Ev.info, Bool.and_eq_true,
      decide_eq_true_eq]
    constructor
    · rintro ⟨_, h⟩
      exact h
    · rintro rfl
      simp
  · intro t1 t2 i1 i2 s1 s2 v1 v2 l1 l2
    simp only [Ev.eq, Ev.vesselEventEq, Ev.baseEq, Ev.isVesselEvent,
      Ev.vesselD, Ev.time, Ev.info, Bool.and_eq_true, decide_eq_true_eq]
    constructor
    · rintro ⟨⟨⟨_, ht, hi⟩, hv⟩, hl⟩
      exact ⟨ht, hi, by injection hv, hl⟩
    · rintro ⟨rfl, rfl, rfl, rfl⟩
      simp

/-- C2 (counterexample): `EventQueue.remove` matches by `EventItem`
equality, which compares only the time.  Removing an idle event of vessel
2 at location B from a schedule holding only an idle event of vessel 1 at
location A with the same time deletes that structurally different entry
and logs no warning, although the claim predicts an unchanged schedule
plus a warning. -/
theorem C2_counterexample :
    (∀ it ∈ [(⟨.fin 1, mkIdleEvent (.fin 1) ⟨1, "w"⟩ ⟨"A"⟩⟩ : EventItem)],
      Ev.eq (mkIdleEvent (.fin 1) ⟨2, "v"⟩ ⟨"B"⟩) it.event = false ∧
      Ev.eq it.event (mkIdleEvent (.fin 1) ⟨2, "v"⟩ ⟨"B"⟩) = false) ∧
    queueRemove [⟨.fin 1, mkIdleEvent (.fin 1) ⟨1, "w"⟩ ⟨"A"⟩⟩]
        [mkIdleEvent (.fin 1) ⟨2, "v"⟩ ⟨"B"⟩] = ([], []) ∧
    ([] : List EventItem) ≠ [⟨.fin 1, mkIdleEvent (.fin 1) ⟨1, "w"⟩ ⟨"A"⟩⟩] := by
  decide

/-- C2 (amended): for each given event `e`, `remove` deletes the first
schedule entry whose time equals `e.time` (`EventItem.__eq__` compares
only the time); when no entry carries that time it does not raise, leaves
the schedule unchanged, and logs a warning for `e`. -/
theorem C2_amended (q : List EventItem) (e : Ev) :
    ((∀ it ∈ q, it.time ≠ e.time) → queueRemove q [e] = (q, [e])) ∧
    (∀ l1 it l2, q = l1 ++ it :: l2 → it.time = e.time →
      (∀ z ∈ l1, z.time ≠ e.time) →
      queueRemove q [e] = (l1 ++ l2, [])) := by
  constructor
  · intro h
    have hr : pyListRemove q ⟨e.time, e⟩ = none :=
      pyListRemove_not_found q ⟨e.time, e⟩ h
    simp [queueRemove, removeStep, queueRemoveOne, hr]
  · intro l1 it l2 hq hit hl1
    subst hq
    have hr : pyListRemove (l1 ++ it :: l2) ⟨e.time, e⟩ = some (l1 ++ l2) :=
      pyListRemove_found l1 it l2 ⟨e.time, e⟩ hit hl1
    simp [queueRemove, removeStep, queueRemoveOne, hr]

theorem C2_witness :
    queueRemove [(⟨.fin 2, .base (.fin 2) none⟩ : EventItem)]
        [.base (.fin 3) none]
      = ([⟨.fin 2, .base (.fin 2) none⟩], [.base (.fin 3) none]) ∧
    queueRemove [(⟨.fin 3, .base (.fin 3) (some "other")⟩ : EventItem)]
        [.base (.fin 3) none]
      = ([], []) :=
  ⟨(C2_amended [⟨.fin 2, .base (.fin 2) none⟩] (.base (.fin 3) none)).1
      (by decide),
   (C2_amended [⟨.fin 3, .base (.fin 3) (some "other")⟩]
        (.base (.fin 3) none)).2
      [] ⟨.fin 3, .base (.fin 3) (some "other")⟩ [] rfl (by decide)
      (by decide)⟩

/-- C3 (counterexample): with two idle events at the same time bound to
vessels w and v (in that heap order), `purge(v)` collects v's event but
`remove` then deletes the first entry with that time — the one bound to w.
The result keeps v's event and drops w's, instead of removing exactly the
events bound to v. -/
theorem C3_counterexample :
    pushAll [⟨.fin 1, mkIdleEvent (.fin 1) ⟨2, "w"⟩ ⟨"A"⟩⟩,
             ⟨.fin 1, mkIdleEvent (.fin 1) ⟨1, "v"⟩ ⟨"A"⟩⟩]
      = [⟨.fin 1, mkIdleEvent (.fin 1) ⟨2, "w"⟩ ⟨"A"⟩⟩,
         ⟨.fin 1, mkIdleEvent (.fin 1) ⟨1, "v"⟩ ⟨"A"⟩⟩] ∧
    queuePurge [⟨.fin 1, mkIdleEvent (.fin 1) ⟨2, "w"⟩ ⟨"A"⟩⟩,
                ⟨.fin 1, mkIdleEvent (.fin 1) ⟨1, "v"⟩ ⟨"A"⟩⟩] ⟨1, "v"⟩
      = ([⟨.fin 1, mkIdleEvent (.fin 1) ⟨1, "v"⟩ ⟨"A"⟩⟩], []) ∧
    (queuePurge [⟨.fin 1, mkIdleEvent (.fin 1) ⟨2, "w"⟩ ⟨"A"⟩⟩,
                 ⟨.fin 1, mkIdleEvent (.fin 1) ⟨1, "v"⟩ ⟨"A"⟩⟩] ⟨1, "v"⟩).1
      ≠ [⟨.fin 1, mkIdleEvent (.fin 1) ⟨2, "w"⟩ ⟨"A"⟩⟩] := by
  refine ⟨rfl, rfl, ?_⟩
  decide

/-- C3 (amended): on a schedule whose entries carry their event's time and
whose times are pairwise distinct, `purge(v)` removes exactly the events
bound to vessel v (via the `VesselEvent` capability) and leaves every
other entry present, untouched and in its original relative order — the
result is the filter of the schedule by "not bound to v", with no
warnings. -/
theorem C3_amended (q : List EventItem) (v : Vessel)
    (hwf : ∀ it ∈ q, it.event.time = it.time)
    (hdist : q.Pairwise (fun a b : EventItem => a.time ≠ b.time)) :
    queuePurge q v
      = (q.filter
          (fun it => !(it.event.isVesselEvent && it.event.vesselD == some v)),
         []) := by
  induction q with
  | nil => rfl
  | cons a q ih =>
    obtain ⟨hane, hdist2⟩ := List.pairwise_cons.mp hdist
    have hwf2 : ∀ it ∈ q, it.event.time = it.time :=
      fun it h => hwf it (List.mem_cons_of_mem a h)
    have hwa : a.event.time = a.time := hwf a (List.mem_cons_self a q)
    have ihq := ih hwf2 hdist2
    simp only [queuePurge, queueRemove] at ihq ⊢
    by_cases hP : (a.event.isVesselEvent && a.event.vesselD == some v) = true
    · have hcol : collectVesselEvents (a :: q) v
          = a.event :: collectVesselEvents q v := by
        unfold collectVesselEvents
        rw [List.filterMap_cons, if_pos hP]
      rw [hcol, List.foldl_cons]
      have hstep : removeStep (a :: q, ([] : List Ev)) a.event = (q, []) := by
        unfold removeStep queueRemoveOne
        rw [pyListRemove, if_pos (by simp [EventItem.beqPy, hwa])]
        simp
      rw [hstep, ihq, List.filter_cons_of_neg (by simp [hP])]
    · have hcol : collectVesselEvents (a :: q) v = collectVesselEvents q v := by
        unfold collectVesselEvents
        rw [List.filterMap_cons, if_neg hP]
      have hne : ∀ c ∈ collectVesselEvents q v, c.time ≠ a.time := by
        intro c hc
        obtain ⟨it, hit, hsome⟩ := List.mem_filterMap.mp hc
        by_cases hPit : (it.event.isVesselEvent && it.event.vesselD == some v)
            = true
        · rw [if_pos hPit] at hsome
          injection hsome with hsome
          subst hsome
          rw [hwf2 it hit]
          exact (hane it hit).symm
        · rw [if_neg hPit] at hsome
          cases hsome
      rw [hcol, removeFold_skip (collectVesselEvents q v) a q [] hne, ihq,
        List.filter_cons_of_pos (by simp [hP])]

theorem C3_witness :
    queuePurge
        [⟨.fin 1, mkIdleEvent (.fin 1) ⟨1, "v"⟩ ⟨"A"⟩⟩,
         ⟨.fin 2, .base (.fin 2) none⟩,
         ⟨.fin 3, mkIdleEvent (.fin 3) ⟨2, "w"⟩ ⟨"B"⟩⟩] ⟨1, "v"⟩
      = ([⟨.fin 2, .base (.fin 2) none⟩,
          ⟨.fin 3, mkIdleEvent (.fin 3) ⟨2, "w"⟩ ⟨"B"⟩⟩], []) := by
  have h := C3_amended
    [⟨.fin 1, mkIdleEvent (.fin 1) ⟨1, "v"⟩ ⟨"A"⟩⟩,
     ⟨.fin 2, .base (.fin 2) none⟩,
     ⟨.fin 3, mkIdleEvent (.fin 3) ⟨2, "w"⟩ ⟨"B"⟩⟩] ⟨1, "v"⟩
    (by decide) (by decide)
  exact h.trans (by decide)

/-- C9: executing a `CargoAnnouncementEvent` fetches exactly the trades the
shipping collaborator reports for the designated cargo-available time,
informs the market of exactly those trades for that time together with the
companies, and puts the generated successor announcement for that time
into the schedule; the `FirstCargoAnnouncementEvent` does the same for the
second cargo time and additionally seeds the time-0 announcement.
(`class_factory.generate_event_cargo` is modelled from the spec.) -/
theorem C9_theorem (cat : STime) (eng : Engine) (q : List EventItem)
    (hfin : cat ≠ .inf) :
    (cargoAnnouncementAction cat eng q).1
      = ⟨eng.shipping cat, cat, eng.shippingCompanies⟩ ∧
    (∃ q2, (cargoAnnouncementAction cat eng q).2.2 = .ok (q2, none) ∧
      (⟨cat, generateEventCargo cat⟩ : EventItem) ∈ q2) ∧
    (∀ cat2 : STime, cat2 ≠ .inf →
      (firstCargoAnnouncementAction cat2 eng q).1
        = ⟨eng.shipping cat2, cat2, eng.shippingCompanies⟩ ∧
      ∃ q2, (firstCargoAnnouncementAction cat2 eng q).2.2 = .ok (q2, none) ∧
        (⟨.fin 0, generateEventCargo (.fin 0)⟩ : EventItem) ∈ q2 ∧
        (⟨cat2, generateEventCargo cat2⟩ : EventItem) ∈ q2) := by
  have hput : ∀ (c : STime), c ≠ .inf → ∀ (qq : List EventItem),
      queuePut qq (generateEventCargo c) eng.currentTime
        = .ok (heappush qq ⟨c, generateEventCargo c⟩, none) := by
    intro c hc qq
    simp only [queuePut, generateEventCargo, Ev.addedToQueue, Ev.time]
    rw [if_neg hc]
  refine ⟨rfl, ?_, ?_⟩
  · refine ⟨heappush q ⟨cat, generateEventCargo cat⟩, ?_, ?_⟩
    · show queuePut q (generateEventCargo cat) eng.currentTime = _
      exact hput cat hfin q
    · exact (heappush_mem q _ _).mpr (Or.inl rfl)
  · intro cat2 h2
    refine ⟨rfl,
      heappush (heappush q ⟨.fin 0, generateEventCargo (.fin 0)⟩)
        ⟨cat2, generateEventCargo cat2⟩, ?_, ?_, ?_⟩
    · simp only [firstCargoAnnouncementAction]
      rw [hput (.fin 0) (by simp) q]
      exact hput cat2 h2 _
    · exact (heappush_mem _ _ _).mpr
        (Or.inr ((heappush_mem _ _ _).mpr (Or.inl rfl)))
    · exact (heappush_mem _ _ _).mpr (Or.inl rfl)

theorem C9_witness :
    (cargoAnnouncementAction (.fin 10)
        ⟨fun _ => [⟨⟨"O1"⟩, ⟨"D1"⟩, "oil", 1, none, none, none, none⟩,
                   ⟨⟨"O2"⟩, ⟨"D2"⟩, "gas", 2, none, none, none, none⟩,
                   ⟨⟨"O3"⟩, ⟨"D3"⟩, "ore", 3, none, none, none, none⟩],
         ["companyA"], 0⟩ []).1
      = ⟨[⟨⟨"O1"⟩, ⟨"D1"⟩, "oil", 1, none, none, none, none⟩,
          ⟨⟨"O2"⟩, ⟨"D2"⟩, "gas", 2, none, none, none, none⟩,
          ⟨⟨"O3"⟩, ⟨"D3"⟩, "ore", 3, none, none, none, none⟩],
         .fin 10, ["companyA"]⟩ ∧
    (∃ q2, (cargoAnnouncementAction (.fin 10)
        ⟨fun _ => [⟨⟨"O1"⟩, ⟨"D1"⟩, "oil", 1, none, none, none, none⟩,
                   ⟨⟨"O2"⟩, ⟨"D2"⟩, "gas", 2, none, none, none, none⟩,
                   ⟨⟨"O3"⟩, ⟨"D3"⟩, "ore", 3, none, none, none, none⟩],
         ["companyA"], 0⟩ []).2.2 = .ok (q2, none) ∧
      (⟨.fin 10, generateEventCargo (.fin 10)⟩ : EventItem) ∈ q2) := by
  have h := C9_theorem (.fin 10)
    ⟨fun _ => [⟨⟨"O1"⟩, ⟨"D1"⟩, "oil", 1, none, none, none, none⟩,
               ⟨⟨"O2"⟩, ⟨"D2"⟩, "gas", 2, none, none, none, none⟩,
               ⟨⟨"O3"⟩, ⟨"D3"⟩, "ore", 3, none, none, none, none⟩],
     ["companyA"], 0⟩ [] (by simp)
  exact ⟨h.1, h.2.1⟩

/-- C1 (counterexample): `heapq` is not stable.  Pushing four events with
times 1, 1, 1, 0 (tagged a, b, c, d in insertion order) and draining the
queue extracts the equal-time events in the order c, a, b — not their
insertion order a, b, c, which the claim predicts. -/
theorem C1_counterexample :
    drain (pushAll
      [⟨.fin 1, .base (.fin 1) (some "a")⟩, ⟨.fin 1, .base (.fin 1) (some "b")⟩,
       ⟨.fin 1, .base (.fin 1) (some "c")⟩, ⟨.fin 0, .base (.fin 0) (some "d")⟩])
      = [⟨.fin 0, .base (.fin 0) (some "d")⟩, ⟨.fin 1, .base (.fin 1) (some "c")⟩,
         ⟨.fin 1, .base (.fin 1) (some "a")⟩, ⟨.fin 1, .base (.fin 1) (some "b")⟩]
    ∧
    drain (pushAll
      [⟨.fin 1, .base (.fin 1) (some "a")⟩, ⟨.fin 1, .base (.fin 1) (some "b")⟩,
       ⟨.fin 1, .base (.fin 1) (some "c")⟩, ⟨.fin 0, .base (.fin 0) (some "d")⟩])
      ≠ [⟨.fin 0, .base (.fin 0) (some "d")⟩, ⟨.fin 1, .base (.fin 1) (some "a")⟩,
         ⟨.fin 1, .base (.fin 1) (some "b")⟩, ⟨.fin 1, .base (.fin 1) (some "c")⟩] := by
  constructor
  · rfl
  · decide

/-- C1 (amended): for every sequence of insertions, draining the queue by
successive `extract_next` calls returns the inserted items in
non-decreasing time order and as a permutation (equal multiset) of the
insertions; every heap state reached by pushes satisfies the heap
invariant, and on any such state each extraction returns a minimum-time
item among all currently held items and preserves the invariant.  Among
items with equal time the extraction order is deterministic but fixed by
the heap layout, not by insertion order. -/
theorem C1_amended (items : List EventItem) :
    List.Chain' (fun a b : EventItem => STime.le a.time b.time = true)
      (drain (pushAll items)) ∧
    (↑(drain (pushAll items)) : Multiset EventItem) = ↑items ∧
    IsHeap (pushAll items) ∧
    (∀ (q : List EventItem) (it : EventItem) (rest : List EventItem),
      IsHeap q → heappop q = some (it, rest) →
      (∀ y ∈ q, STime.le it.time y.time = true) ∧ IsHeap rest) := by
  refine ⟨?_, ?_, pushAll_isHeap items, ?_⟩
  · exact drainFuel_sorted (pushAll items).length (pushAll items) (le_refl _)
      (pushAll_isHeap items)
  · rw [show drain (pushAll items)
        = drainFuel (pushAll items).length (pushAll items) from rfl,
      drainFuel_ms (pushAll items).length (pushAll items) (le_refl _),
      pushAll_ms]
  · intro q it rest hq hpop
    obtain ⟨_, _, hmin⟩ := heappop_main q it rest hpop
    obtain ⟨hrest, hmin2⟩ := hmin hq
    exact ⟨hmin2, hrest⟩

theorem C1_witness :
    (∀ y ∈ [(⟨.fin 1, .base (.fin 1) none⟩ : EventItem),
            ⟨.fin 2, .base (.fin 2) none⟩],
      STime.le (STime.fin 1) y.time = true) ∧
    IsHeap [⟨.fin 2, .base (.fin 2) none⟩] := by
  have h := (C1_amended
      [⟨.fin 1, .base (.fin 1) none⟩, ⟨.fin 2, .base (.fin 2) none⟩]).2.2.2
    [⟨.fin 1, .base (.fin 1) none⟩, ⟨.fin 2, .base (.fin 2) none⟩]
    ⟨.fin 1, .base (.fin 1) none⟩ [⟨.fin 2, .base (.fin 2) none⟩]
    (by decide) (by rfl)
  exact h

theorem C7_witness :
    Ev.eq (mkIdleEvent (.fin 1) ⟨1, "v"⟩ ⟨"A"⟩)
      (mkIdleEvent (.fin 1) ⟨1, "v"⟩ ⟨"A"⟩) = true :=
  (C7_amended.1 (.fin 1) (.fin 1) ⟨1, "v"⟩ ⟨1, "v"⟩ ⟨"A"⟩ ⟨"A"⟩).mpr
    ⟨rfl, rfl, rfl⟩
